import Mathlib

/-!
Verification of the yamap schema-driven YAML mapper.

This file gives a shallow embedding of the core of the yamap library
(`yamap/schema.py`, `yamap/mapper.py`, `yamap/util.py`, `yamap/errors.py`)
and proves properties of it.

Modelling conventions:
* A parsed YAML node (ruamel's `Node`, an external collaborator) is
  modelled by the inductive `Node` below: a tag string together with
  either a scalar payload, an ordered list of item nodes, or an ordered
  list of (key node, value node) pairs.  Source positions (`start_mark`)
  are only used for human-readable message formatting and are omitted;
  errors carry the offending node itself, exactly as the Python
  exception objects do.
* Compiled regular expressions (`re.Pattern`) are modelled by the
  structure `Pattern`: the source text together with the (anchored)
  `fullmatch` predicate as a boolean-valued function.
* Python exceptions are modelled by the error type `Err` together with
  `Except Err` results.  `Err.internalError` marks control paths that
  the Python source cannot reach with the objects the library itself
  constructs (e.g. calling the non-existent `match_children` on a
  `yaoneof`, which would be an `AttributeError`).
* ruamel's `SafeConstructor` is kept abstract: it is a record of the
  four constructor functions that `yamap.util.as_scalar` dispatches to.
* Generators are evaluated eagerly.  This is observationally equivalent
  for `load_and_map`: every error raised while a generator is being
  drained aborts the whole load before any of the pushed children is
  processed, so producing the full child list or the error up front
  yields the same final result.
* The `counts` dictionary of `yamap.match_children` is keyed by
  `yaentry` dataclass value, merging duplicate-equal entry rules into
  one counter.  Dataclass equality compares callable-valued fields by
  object identity, which has no counterpart for Lean functions; the
  embedded key equality (`yaentryBEq`) compares the structural skeleton
  instead — see its docstring for the exact convention and the cases
  it cannot distinguish.
-/

/-- External node abstraction (spec section 3): one parsed YAML node,
carrying a type tag and either a scalar payload, a sequence of child
nodes, or an ordered sequence of key/value node pairs. -/
inductive Node where
  | scalar (tag : String) (value : String)
  | seq (tag : String) (items : List Node)
  | map (tag : String) (pairs : List (Node × Node))

/-- The `tag` attribute of a node. -/
def Node.tag : Node → String
  | .scalar t _ => t
  | .seq t _ => t
  | .map t _ => t

/-- The `value` attribute of a scalar node (the raw scalar text).  The
Python code only reads `node.value` as a string on nodes it has already
established to be scalars; on the other shapes we return `""`. -/
def Node.scalarValue : Node → String
  | .scalar _ v => v
  | _ => ""

/-- Python values produced by resolution: `None`, booleans, integers,
strings, lists, 2-tuples (from `yamap.util.pair`), dicts built from
pair lists, and the two symbolic "call with unpacked arguments" shapes
used to model `unpacked_map` / `unpacked_seq` argument spreading. -/
inductive Value where
  | vnull
  | vbool (b : Bool)
  | vint (i : Int)
  | vstr (s : String)
  | vlist (items : List Value)
  | vtuple (fst snd : Value)
  | vdict (pairs : List (Value × Value))
  | vkwargs (pairs : List (Value × Value))
  | vargs (items : List Value)

/-- The exceptions of `yamap/errors.py` plus the generic Python errors
the source can raise.  `noMatchingType node` is `NoMatchingType(node)`
(a subclass of `MappingError` with fixed message), `mappingError` is
`MappingError(msg, node)`, `schemaError` is `SchemaError`,
`typeError` / `notImplementedError` / `runtimeError` model the built-in
exceptions raised in `schema.py` / `util.py`, and `internalError` marks
paths unreachable for the objects the library builds. -/
inductive Err where
  | noMatchingType (node : Node)
  | mappingError (msg : String) (node : Node)
  | schemaError (msg : String)
  | typeError (msg : String)
  | notImplementedError
  | runtimeError (msg : String)
  | internalError

/-- A compiled regular expression: its source text (`re.Pattern.pattern`,
used by `yaentry.keys_repr`) and its anchored `fullmatch` test. -/
structure Pattern where
  pattern : String
  fullmatch : String → Bool

/-- Abstract interface of ruamel's `SafeConstructor` (an external
collaborator): the four constructor entry points that
`yamap.util.as_scalar` dispatches to.  Leaf value construction from
tag + payload is out of scope for the core (spec section 1), so these
functions are kept abstract. -/
structure SafeConstructor where
  construct_yaml_bool : Node → Value
  construct_yaml_float : Node → Value
  construct_yaml_int : Node → Value
  construct_scalar : Node → Value

/-- Embedding of `yamap.util.as_scalar`: turn a YAML scalar node into a
Python object by dispatching on the node's tag. -/
def as_scalar (constructor : SafeConstructor) (node : Node) : Value :=
  if node.tag = "tag:yaml.org,2002:null" then .vnull
  else if node.tag = "tag:yaml.org,2002:bool" then constructor.construct_yaml_bool node
  else if node.tag = "tag:yaml.org,2002:float" then constructor.construct_yaml_float node
  else if node.tag = "tag:yaml.org,2002:int" then constructor.construct_yaml_int node
  else constructor.construct_scalar node

/-- The `type` callable stored on a schema node, as a closed grammar:
the two class defaults `list` (`yaseq`) and `dict` (`yamap`), the three
wrappers from `yamap/util.py` (`squashed`, `unpacked_map`,
`unpacked_seq`), and arbitrary user callables. -/
inductive TypeFn where
  | listT
  | dictT
  | squashedT (inner : TypeFn)
  | unpackedMapT (inner : TypeFn)
  | unpackedSeqT (inner : TypeFn)
  | custom (f : Value → Value)

/-- Interpret a list of already-resolved values as a list of 2-tuples,
as Python's `dict(items)` and `callable(**dict(items))` do.  A non-pair
element makes the Python calls raise; we return `internalError`. -/
def valuePairs : List Value → Except Err (List (Value × Value))
  | [] => .ok []
  | .vtuple a b :: rest =>
      match valuePairs rest with
      | .error e => .error e
      | .ok ps => .ok ((a, b) :: ps)
  | _ :: _ => .error .internalError

/-- Apply a `type` callable to a value.  `squashedT` embeds
`yamap.util.squashed`: it demands exactly one element and passes it on,
raising `RuntimeError('Not exactly one element')` otherwise.
`unpackedMapT` / `unpackedSeqT` embed `unpacked_map` / `unpacked_seq`:
the argument spreading is recorded symbolically via `Value.vkwargs` /
`Value.vargs`. -/
def applyType : TypeFn → Value → Except Err Value
  | .listT, .vlist xs => .ok (.vlist xs)
  | .listT, _ => .error .internalError
  | .dictT, .vlist xs =>
      (match valuePairs xs with
       | .error e => .error e
       | .ok ps => .ok (.vdict ps))
  | .dictT, _ => .error .internalError
  | .squashedT inner, .vlist [x] => applyType inner x
  | .squashedT _, .vlist _ => .error (.runtimeError "Not exactly one element")
  | .squashedT _, _ => .error .internalError
  | .unpackedMapT inner, .vlist xs =>
      (match valuePairs xs with
       | .error e => .error e
       | .ok ps => applyType inner (.vkwargs ps))
  | .unpackedMapT _, _ => .error .internalError
  | .unpackedSeqT inner, .vlist xs => applyType inner (.vargs xs)
  | .unpackedSeqT _, _ => .error .internalError
  | .custom f, v => .ok (f v)

/-- The pairlike callables (`PairlikeCallable`) stored on `yaexpand`
and entry cases; the default is `yamap.util.pair`. -/
def PairFn : Type := String → Value → Value

/-- Embedding of `yamap.util.pair`: build a two-element tuple. -/
def pair : PairFn := fun a b => .vtuple (.vstr a) b

/-- Embedding of `yamap.util.zip_first`, additionally reporting the
position of the first hit: evaluate `pred` on each item in turn and
return the first `(index, item, result)` with a truthy (`some`) result,
or `none` when the list is exhausted.  The index additionally records
the position of the returned item, so that the entry object
`zip_first` hands to the `counts` dictionary can be recovered as
`entries[i]`. -/
def zipFirstFrom {A B : Type} (pred : A → Option B) : Nat → List A → Option (Nat × A × B)
  | _, [] => none
  | i, a :: rest =>
      match pred a with
      | some b => some (i, a, b)
      | none => zipFirstFrom pred (i + 1) rest

/-- The entry point of `zip_first`, starting the index at zero. -/
def zip_first {A B : Type} (pred : A → Option B) (l : List A) : Option (Nat × A × B) :=
  zipFirstFrom pred 0 l

/-- Helper for `yaentry.keys_repr`: Python's `' | '.join`. -/
def joinSep (sep : String) : List String → String
  | [] => ""
  | [s] => s
  | s :: rest => s ++ sep ++ joinSep sep rest

/-- The schema type hierarchy of `yamap/schema.py` as a closed grammar.
`yaoneof` is the alternation, `yaexpand` the internal entry-expansion
helper, `yascalar` covers the whole scalar-leaf family (`yastr`,
`yanull`, `yabool`, `yanumber`, `yaint`, `yafloat` differ only in their
default `tag` pattern), `yamap` and `yaseq` are the two branch schemas.
A `yamap` entry (`yaentry`) is the triple
`(required, repeat, keys)` with `keys` the ordered
`(key pattern, value schema, pairlike callable)` cases. -/
inductive yaschema where
  | yaoneof (entries : List yaschema)
  | yaexpand (key : String) (value_schema : yaschema) (type : PairFn)
  | yascalar (tag : Pattern) (type : Option TypeFn) (value : Option Pattern)
      (construct : SafeConstructor → Node → Value)
  | yamap (tag : Pattern) (type : Option TypeFn)
      (entries : List (Bool × Bool × List (Pattern × yaschema × PairFn)))
  | yaseq (tag : Pattern) (type : Option TypeFn) (schema : yaschema)

/-- The `yaentry` dataclass: `required` flag, `repeat` flag, and the
tuple of `(key pattern, value schema, pairlike callable)` cases. -/
abbrev yaentry : Type := Bool × Bool × List (Pattern × yaschema × PairFn)

/-- The `required` field of a `yaentry`. -/
def yaentry.required (e : yaentry) : Bool := e.1

/-- The `repeat` field of a `yaentry` (named `repeated` here because
`repeat` is reserved). -/
def yaentry.repeated (e : yaentry) : Bool := e.2.1

/-- The `keys` field of a `yaentry`. -/
def yaentry.keys (e : yaentry) : List (Pattern × yaschema × PairFn) := e.2.2

/-- Embedding of `yaentry.keys_repr`: a readable rendering of the
entry's key pattern set for exception messages. -/
def keys_repr (e : yaentry) : String :=
  "(" ++ joinSep " | " (e.keys.map (fun c => c.1.pattern)) ++ ")"

mutual

/-- Embedding of the `matches` methods of the hierarchy.
`yaoneof.matches` tries its entries in order (via `matchesOneof`);
`yaexpand.matches` delegates to its value schema; `yanode.matches`
(specialised by `yascalar.matches`, which additionally applies the
optional value pattern) returns the schema itself when the node's tag
fully matches the tag pattern and raises `NoMatchingType(node)`
otherwise. -/
def yaschema.matches : yaschema → Node → Except Err yaschema
  | .yaoneof entries, node => yaschema.matchesOneof entries node
  | .yaexpand _ value_schema _, node => yaschema.matches value_schema node
  | .yascalar tag type value construct, node =>
      if tag.fullmatch node.tag then
        match value with
        | none => .ok (.yascalar tag type value construct)
        | some vp =>
            if vp.fullmatch node.scalarValue then .ok (.yascalar tag type value construct)
            else .error (.noMatchingType node)
      else .error (.noMatchingType node)
  | .yamap tag type entries, node =>
      if tag.fullmatch node.tag then .ok (.yamap tag type entries)
      else .error (.noMatchingType node)
  | .yaseq tag type schema, node =>
      if tag.fullmatch node.tag then .ok (.yaseq tag type schema)
      else .error (.noMatchingType node)

/-- The loop body of `yaoneof.matches`: try each entry in order under
`suppress(NoMatchingType)` and return the first success; when the
entries are exhausted raise `NoMatchingType(node)`.  (A non-`noMatchingType`
error would propagate, but `matches` only ever raises
`NoMatchingType`; see `matches_error_shape`.) -/
def yaschema.matchesOneof : List yaschema → Node → Except Err yaschema
  | [], node => .error (.noMatchingType node)
  | e :: rest, node =>
      match yaschema.matches e node with
      | .ok r => .ok r
      | .error (.noMatchingType _) => yaschema.matchesOneof rest node
      | .error other => .error other

end

/-- The loop body of `yaentry.match_item`: scan the entry's cases in
order; skip cases whose key pattern does not fully match the key; for
a case whose pattern matches, return `(key, schema.matches(value), type)`
if the value schema matches, otherwise (the `suppress(NoMatchingType)`
in the source) fall through to the next case. -/
def matchItemKeys : List (Pattern × yaschema × PairFn) → String → Node →
    Option (String × yaschema × PairFn)
  | [], _, _ => none
  | (regex, schema, t) :: rest, key, value =>
      if regex.fullmatch key then
        match yaschema.matches schema value with
        | .ok m => some (key, m, t)
        | .error _ => matchItemKeys rest key value
      else matchItemKeys rest key value

/-- Embedding of `yaentry.match_item`: try to match this entry to the
given key/value-node pair. -/
def match_item (e : yaentry) (key : String) (value : Node) :
    Option (String × yaschema × PairFn) :=
  matchItemKeys e.keys key value

/-- One iteration of the scanning loop of `yamap.match_children`: check
that the key node's tag is the plain-string tag (else
`MappingError('Only plain strings supported as mapping keys', key_node)`),
then look for the first entry whose `match_item` succeeds via
`zip_first` (else `NoMatchingType(key_node)`), and produce the index of
the recorded entry together with the `(value node, yaexpand)` child. -/
def scanPair (entries : List yaentry) (kv : Node × Node) :
    Except Err (Nat × (Node × yaschema)) :=
  if kv.1.tag ≠ "tag:yaml.org,2002:str" then
    .error (.mappingError "Only plain strings supported as mapping keys" kv.1)
  else
    match zip_first (fun e => match_item e kv.1.scalarValue kv.2) entries with
    | none => .error (.noMatchingType kv.1)
    | some (i, _, (key, m, t)) => .ok (i, (kv.2, .yaexpand key m t))

/-- Equality of `type` callables as dataclass fields.  Python compares
them with `==`, i.e. object identity for functions: the class defaults
`list` and `dict` are shared builtins (always identical), while the
`squashed` / `unpacked_map` / `unpacked_seq` wrappers and user
callables are opaque function objects whose identity has no counterpart
for Lean functions; the embedding compares their structural
representations instead (see `yaentryBEq`). -/
def typeFnBEq : TypeFn → TypeFn → Bool
  | .listT, .listT => true
  | .dictT, .dictT => true
  | .squashedT a, .squashedT b => typeFnBEq a b
  | .unpackedMapT a, .unpackedMapT b => typeFnBEq a b
  | .unpackedSeqT a, .unpackedSeqT b => typeFnBEq a b
  | .custom _, .custom _ => true
  | _, _ => false

/-- Equality of optional `type` fields. -/
def typeOptBEq : Option TypeFn → Option TypeFn → Bool
  | none, none => true
  | some a, some b => typeFnBEq a b
  | _, _ => false

/-- Equality of optional value-pattern fields.  Compiled patterns are
compared by their source text: `re.Pattern` objects compare by
identity, and `re.compile` caches compilations, so equal-source
patterns are the same object. -/
def patOptBEq : Option Pattern → Option Pattern → Bool
  | none, none => true
  | some a, some b => a.pattern == b.pattern
  | _, _ => false

mutual

/-- Dataclass equality of schema values, as used by the keys of the
`counts` dictionary in `yamap.match_children` (through the `yaentry`
fields).  Python's dataclass `==` compares fields recursively, with
callable-valued fields (compiled regexes, `construct` hooks, `type`
callables, pairlike callables) compared by object identity.  The
embedding compares regexes by their source text (`re.compile` caches,
so equal-source compiles are the same object) and schemas recursively;
the identity of the remaining opaque callables has no counterpart for
Lean functions, so those fields compare by their structural embedding.
This coincides with the source whenever the corresponding callable
fields are identical objects — in particular on every schema built
from the library's shared defaults (`pair`, `as_scalar`, `dict`,
`list`) and whenever one schema or entry value is registered twice —
and cannot distinguish distinct user callables or separately
constructed wrapper closures of equal structure. -/
def yaschemaBEq : yaschema → yaschema → Bool
  | .yaoneof es1, .yaoneof es2 => yaschemaListBEq es1 es2
  | .yaexpand k1 v1 _, .yaexpand k2 v2 _ => k1 == k2 && yaschemaBEq v1 v2
  | .yascalar t1 ty1 val1 _, .yascalar t2 ty2 val2 _ =>
      t1.pattern == t2.pattern && typeOptBEq ty1 ty2 && patOptBEq val1 val2
  | .yamap t1 ty1 es1, .yamap t2 ty2 es2 =>
      t1.pattern == t2.pattern && typeOptBEq ty1 ty2 && yaentryListBEq es1 es2
  | .yaseq t1 ty1 s1, .yaseq t2 ty2 s2 =>
      t1.pattern == t2.pattern && typeOptBEq ty1 ty2 && yaschemaBEq s1 s2
  | _, _ => false
termination_by structural s _ => s

/-- Pointwise `yaschemaBEq` on the entry tuple of a `yaoneof`. -/
def yaschemaListBEq : List yaschema → List yaschema → Bool
  | [], [] => true
  | s1 :: r1, s2 :: r2 => yaschemaBEq s1 s2 && yaschemaListBEq r1 r2
  | _, _ => false
termination_by structural l _ => l

/-- Pointwise dataclass equality on the `entries` tuple of a `yamap`:
each `yaentry` compares its `required` and `repeat` flags and its
`keys` cases. -/
def yaentryListBEq : List (Bool × Bool × List (Pattern × yaschema × PairFn)) →
    List (Bool × Bool × List (Pattern × yaschema × PairFn)) → Bool
  | [], [] => true
  | (q1, p1, ks1) :: r1, (q2, p2, ks2) :: r2 =>
      q1 == q2 && p1 == p2 && caseListBEq ks1 ks2 && yaentryListBEq r1 r2
  | _, _ => false
termination_by structural l _ => l

/-- Pointwise equality on the `keys` cases of a `yaentry`: the key
pattern by source text, the value schema by dataclass equality; the
pairlike callable field is identity-compared in Python (see
`yaschemaBEq` for the convention on opaque callables). -/
def caseListBEq : List (Pattern × yaschema × PairFn) →
    List (Pattern × yaschema × PairFn) → Bool
  | [], [] => true
  | (p1, s1, _) :: r1, (p2, s2, _) :: r2 =>
      p1.pattern == p2.pattern && yaschemaBEq s1 s2 && caseListBEq r1 r2
  | _, _ => false
termination_by structural l _ => l

end

/-- Dataclass equality of two `yaentry` values: the key equality of the
`counts` dictionary in `yamap.match_children` (schema.py line 361),
which merges duplicate-equal entry rules into one counter. -/
def yaentryBEq (e1 e2 : yaentry) : Bool :=
  e1.required == e2.required && e1.repeated == e2.repeated &&
    caseListBEq e1.keys e2.keys

/-- Positional lookup into the declared entry tuple: `entries[i]`, the
entry object whose index a scan hit recorded. -/
def entryAt : List yaentry → Nat → Option yaentry
  | [], _ => none
  | e :: _, 0 => some e
  | _ :: rest, n + 1 => entryAt rest n

/-- The value of `counts[e]` after the scanning loop of
`yamap.match_children`: the dictionary is keyed by `yaentry` dataclass
value, so looking up the entry `e` counts every scanned pair whose
recorded entry object (`entries[i]` for the recorded index `i`) is
dataclass-equal to `e` — duplicate-equal entry rules share one
counter. -/
def countFor (entries : List yaentry) (hits : List (Nat × (Node × yaschema)))
    (e : yaentry) : Nat :=
  (hits.filter (fun h =>
    match entryAt entries h.1 with
    | some e2 => yaentryBEq e2 e
    | none => false)).length

/-- The two cardinality checks `yamap.match_children` runs for one
entry after the scanning loop: `required` entries must have been
recorded at least once, non-`repeat` entries at most once, both read
off the value-keyed `counts` dictionary. -/
def checkOne (node : Node) (entries : List yaentry)
    (hits : List (Nat × (Node × yaschema))) (e : yaentry) : Except Err Unit :=
  if e.required && countFor entries hits e == 0 then
    .error (.mappingError ("Required key " ++ keys_repr e ++ " missing") node)
  else if !e.repeated && decide (1 < countFor entries hits e) then
    .error (.mappingError ("Maximum one of " ++ keys_repr e ++ " allowed") node)
  else .ok ()

/-- The final loop of `yamap.match_children`: run `checkOne` for each
remaining entry, in declaration order, with the count lookups going
through the full declared entry list. -/
def checkEntriesAux (node : Node) (entries : List yaentry)
    (hits : List (Nat × (Node × yaschema))) : List yaentry → Except Err Unit
  | [] => .ok ()
  | e :: rest =>
      match checkOne node entries hits e with
      | .error err => .error err
      | .ok _ => checkEntriesAux node entries hits rest

/-- Entry point of the final check loop: iterate over all declared
entries. -/
def checkEntries (node : Node) (entries : List yaentry)
    (hits : List (Nat × (Node × yaschema))) : Except Err Unit :=
  checkEntriesAux node entries hits entries

/-- Eager `mapM` over `Except`, used to drain the generators of
`yamap.match_children` and `yaseq.match_children`. -/
def exMapM {A B : Type} (f : A → Except Err B) : List A → Except Err (List B)
  | [] => .ok []
  | a :: rest =>
      match f a with
      | .error e => .error e
      | .ok b =>
          match exMapM f rest with
          | .error e => .error e
          | .ok bs => .ok (b :: bs)

/-- Embedding of the `match_children` methods.  Leaf schemas
(`yascalar`) return `none`.  `yaexpand` yields its single
`(node, value_schema.matches(node))` child.  `yamap` scans the node's
key/value pairs in `reversed` document order via `scanPair` and then
runs the cardinality checks.  `yaseq` matches each item of the node, in
`reversed` document order, against its alternation.  `yaoneof` has no
`match_children` method in the source (an `AttributeError` if it ever
reached the mapper); the node shapes the source would crash on
(`node.value` of the wrong shape) are likewise `internalError`. -/
def yaschema.match_children : yaschema → Node → Except Err (Option (List (Node × yaschema)))
  | .yascalar _ _ _ _, _ => .ok none
  | .yaoneof _, _ => .error .internalError
  | .yaexpand _ value_schema _, node =>
      (match yaschema.matches value_schema node with
       | .error e => .error e
       | .ok m => .ok (some [(node, m)]))
  | .yamap _ _ entries, node =>
      (match node with
       | .map _ pairs =>
           (match exMapM (scanPair entries) pairs.reverse with
            | .error e => .error e
            | .ok hits =>
                match checkEntries node entries hits with
                | .error e => .error e
                | .ok _ => .ok (some (hits.map (fun h => h.2))))
       | _ => .error .internalError)
  | .yaseq _ _ schema, node =>
      (match node with
       | .seq _ items =>
           (match exMapM (fun item =>
                    match yaschema.matches schema item with
                    | .error e => .error e
                    | .ok m => .ok (item, m)) items.reverse with
            | .error e => .error e
            | .ok kids => .ok (some kids))
       | _ => .error .internalError)

/-- Embedding of the `construct_leaf` methods: `yascalar` applies its
pluggable `construct` hook; `yabranchnode.construct_leaf` raises
`TypeError`; `yaexpand.construct_leaf` raises `NotImplementedError`;
`yaoneof` has no such method. -/
def yaschema.construct_leaf (constructor : SafeConstructor) :
    yaschema → Node → Except Err Value
  | .yascalar _ _ _ construct, node => .ok (construct constructor node)
  | .yaexpand _ _ _, _ => .error .notImplementedError
  | .yamap _ _ _, _ =>
      .error (.typeError "Branch node cannot be constructed as leaf")
  | .yaseq _ _ _, _ =>
      .error (.typeError "Branch node cannot be constructed as leaf")
  | .yaoneof _, _ => .error .internalError

/-- `yanode.resolve`: run the value through the declared `type`
callable, or pass it through unchanged when no type is declared. -/
def resolveType : Option TypeFn → Value → Except Err Value
  | none, v => .ok v
  | some t, v => applyType t v

/-- Embedding of the `resolve` methods: the node family applies its
optional `type`; `yaexpand.resolve` calls its pairlike callable on its
recorded key and the single child value (`value[0]`). -/
def yaschema.resolve : yaschema → Value → Except Err Value
  | .yascalar _ type _ _, v => resolveType type v
  | .yamap _ type _, v => resolveType type v
  | .yaseq _ type _, v => resolveType type v
  | .yaexpand key _ t, v =>
      (match v with
       | .vlist (x :: _) => .ok (t key x)
       | _ => .error .internalError)
  | .yaoneof _, _ => .error .internalError

/-- The leaf branch of the mapper's pop step
(`mapper.py`, `load_and_map`): re-match the node against the frame's
schema, run the matched schema's `construct_leaf`, then run the frame
schema's `resolve` on the constructed value. -/
def leafEval (constructor : SafeConstructor) (s : yaschema) (node : Node) :
    Except Err Value :=
  match yaschema.matches s node with
  | .error e => .error e
  | .ok s2 =>
      match yaschema.construct_leaf constructor s2 node with
      | .error e => .error e
      | .ok v => yaschema.resolve s v

/-- One open frame of the mapper's explicit stack (`stackitem` in
`mapper.py`), in the grouped representation: `ret` is `some (node,
schema)` for a branch frame already marked `branch_visited` (its pop
will `resolve` the node), and `none` for the synthetic bottom frame
standing for "parent is `None`" (popping into it returns the final
value).  `done` is the frame's `children` list, `todo` the child frames
pushed above it that have not been processed yet (topmost first).  The
flat Python stack is recovered by listing, from the top context down,
each context's `todo` items as unvisited `stackitem`s followed by the
context's own visited `stackitem`; the `parent` back-reference of each
frame is the context below it, so appending to `parent.children` is
appending to that context's `done`. -/
structure Ctx where
  ret : Option (Node × yaschema)
  done : List Value
  todo : List (Node × yaschema)

/-- Outcome of one iteration of the mapper's `while stack:` loop. -/
inductive MStep where
  | failed (e : Err)
  | next (st : List Ctx)
  | finished (v : Value)

/-- Delivery of a popped frame's resolved value (`mapper.py` lines
111-114): append it to the parent frame's `children` if the frame has a
parent, otherwise return it as the final result. -/
def deliver (v : Value) : List Ctx → MStep
  | [] => .failed .internalError
  | c :: cs =>
      match c.ret with
      | none => .finished v
      | some _ => .next ({ c with done := c.done ++ [v] } :: cs)

/-- One iteration of the mapper loop (`mapper.py` lines 75-114), on the
grouped stack.  A context with pending `todo` work corresponds to an
unvisited top frame: compute its `match_children`; a branch pushes a
new context whose `todo` is the yielded children in stack order (the
generator yields them in `reversed` document order and `stack.append`
makes the last yielded item the top, so processing order is document
order, i.e. the reverse of the yielded list); a leaf is popped at once
through `leafEval`.  A context with empty `todo` is a visited branch
frame: pop it, `resolve` its accumulated children, and deliver. -/
def step (constructor : SafeConstructor) : List Ctx → MStep
  | [] => .failed .internalError
  | c :: cs =>
      match c.todo with
      | [] =>
          (match c.ret with
           | none => .failed .internalError
           | some (_, s) =>
               match yaschema.resolve s (.vlist c.done) with
               | .error e => .failed e
               | .ok v => deliver v cs)
      | (n, s) :: rest =>
          (match yaschema.match_children s n with
           | .error e => .failed e
           | .ok none =>
               (match leafEval constructor s n with
                | .error e => .failed e
                | .ok v => deliver v ({ c with todo := rest } :: cs))
           | .ok (some kids) =>
               .next ({ ret := some (n, s), done := [], todo := kids.reverse }
                       :: { c with todo := rest } :: cs))

mutual

/-- Structural size of a node (used for the termination measure of the
mapper loop). -/
def nodeSize : Node → Nat
  | .scalar _ _ => 1
  | .seq _ items => 1 + nodeListSize items
  | .map _ pairs => 1 + nodePairsSize pairs

/-- Sum of `nodeSize` over a list of nodes. -/
def nodeListSize : List Node → Nat
  | [] => 0
  | n :: rest => nodeSize n + nodeListSize rest

/-- Sum of `nodeSize` over both components of a list of node pairs. -/
def nodePairsSize : List (Node × Node) → Nat
  | [] => 0
  | (k, v) :: rest => nodeSize k + nodeSize v + nodePairsSize rest

end

/-- Extra weight of a schema in the termination measure: a `yaexpand`
frame re-expands to a frame on the same node, so it carries two extra
units. -/
def schExtra : yaschema → Nat
  | .yaexpand _ _ _ => 2
  | _ => 0

/-- Weight of one pending work item (an unvisited stack frame). -/
def wItem (p : Node × yaschema) : Nat := 4 * nodeSize p.1 + schExtra p.2

/-- Weight of a pending work list. -/
def wTodo (l : List (Node × yaschema)) : Nat := (l.map wItem).sum

/-- Weight of one open context: one unit for its own eventual pop plus
the weight of its pending children. -/
def ctxMeasure (c : Ctx) : Nat := 1 + wTodo c.todo

/-- Termination measure of a mapper state. -/
def stMeasure (st : List Ctx) : Nat := (st.map ctxMeasure).sum

/-- Fuelled iteration of the mapper loop: `none` means the fuel ran out
before the loop finished. -/
def runF (constructor : SafeConstructor) : Nat → List Ctx → Option (Except Err Value)
  | 0, _ => none
  | fuel + 1, st =>
      match step constructor st with
      | .failed e => some (.error e)
      | .finished v => some (.ok v)
      | .next st2 => runF constructor fuel st2

/-- Total result of running the mapper loop from a state: the measure
plus one is always enough fuel (`runF_adequate` below). -/
def runRes (constructor : SafeConstructor) (st : List Ctx) : Except Err Value :=
  (runF constructor (stMeasure st + 1) st).getD (.error .internalError)

/-- The initial mapper state for a root node and its matched schema:
one frame `(node, schema.matches(node), parent=None)`. -/
def initState (node : Node) (ms : yaschema) : List Ctx :=
  [{ ret := none, done := [], todo := [(node, ms)] }]

/-- Embedding of `mapper.load_and_map` from the root node on: match the
root node against the schema and run the iterative stack machine.
(Stream handling and `loader.get_single_node()` belong to the external
parser; the machine consumes the parsed root node.  The `loader` object
is passed on only in its `SafeConstructor` capacity.) -/
def load_and_map (constructor : SafeConstructor) (schema : yaschema) (node : Node) :
    Except Err Value :=
  match yaschema.matches schema node with
  | .error e => .error e
  | .ok ms => runRes constructor (initState node ms)

/-- The evaluation of a single already-matched subtree: the run of the
machine whose only pending frame is `(node, matched schema)` with
parent `None`. -/
def subEval (constructor : SafeConstructor) (s : yaschema) (node : Node) :
    Except Err Value :=
  runRes constructor (initState node s)

/-- Delivery in result form, mirroring `deliver`. -/
def deliverRun (constructor : SafeConstructor) (v : Value) : List Ctx → Except Err Value
  | [] => .error .internalError
  | c :: cs =>
      match c.ret with
      | none => .ok v
      | some _ => runRes constructor ({ c with done := c.done ++ [v] } :: cs)

/-- The tag pattern class default of `yascalar`:
`tag:yaml\.org,2002:(str|int|float|null|bool)` as an anchored match. -/
def scalarTagPattern : Pattern :=
  { pattern := "tag:yaml\\.org,2002:(str|int|float|null|bool)"
    fullmatch := fun s =>
      s == "tag:yaml.org,2002:str" || s == "tag:yaml.org,2002:int" ||
      s == "tag:yaml.org,2002:float" || s == "tag:yaml.org,2002:null" ||
      s == "tag:yaml.org,2002:bool" }

/-- The tag pattern class default of `yastr`. -/
def strTagPattern : Pattern :=
  { pattern := "tag:yaml\\.org,2002:str"
    fullmatch := fun s => s == "tag:yaml.org,2002:str" }

/-- The tag pattern class default of `yamap`. -/
def mapTagPattern : Pattern :=
  { pattern := "tag:yaml\\.org,2002:map"
    fullmatch := fun s => s == "tag:yaml.org,2002:map" }

/-- The tag pattern class default of `yaseq`. -/
def seqTagPattern : Pattern :=
  { pattern := "tag:yaml\\.org,2002:seq"
    fullmatch := fun s => s == "tag:yaml.org,2002:seq" }

/-- A default `yascalar` instance (`yascalar()`): catch-all scalar tag
pattern, no `type`, no value pattern, `construct = as_scalar`. -/
def yascalarDefault : yaschema := .yascalar scalarTagPattern none none as_scalar

/-- A default `yastr` instance (`yastr()`): like `yascalar()` but
matching only the plain-string tag. -/
def yastrDefault : yaschema := .yascalar strTagPattern none none as_scalar

/-- Embedding of `yaoneof.case`: register an additional schema type
option, returning a new alternation value (`self.copy(entries =
self.entries + (mkobj(entry),))`; schema arguments are taken as
already-instantiated values, `mkobj`'s class-vs-instance dispatch has
no counterpart in the embedding).  On a non-`yaoneof` receiver the
method does not exist; the receiver is returned unchanged. -/
def yaoneof_case (s : yaschema) (entry : yaschema) : yaschema :=
  match s with
  | .yaoneof entries => .yaoneof (entries ++ [entry])
  | other => other

/-- Embedding of `yaentry.case`: add a key-pattern/schema/type case to
the alternatives matched by this entry (`self.copy(keys = self.keys +
((re_compile(pattern), mkobj(schema), type),))`). -/
def yaentry_case (e : yaentry) (pat : Pattern) (schema : yaschema) (t : PairFn) : yaentry :=
  (e.1, e.2.1, e.2.2 ++ [(pat, schema, t)])

/-- The `yaentry` dataclass constructor: no cases yet. -/
def yaentry_mk (required repeated : Bool) : yaentry := (required, repeated, [])

/-- Embedding of `yamap.entry`: add a `yaentry` to this mapping
(`self.copy(entries = self.entries + (entry,))`). -/
def yamap_entry (m : yaschema) (e : yaentry) : yaschema :=
  match m with
  | .yamap tag type entries => .yamap tag type (entries ++ [e])
  | other => other

/-- Embedding of `yamap.case`: shortcut registering a fresh
single-case `yaentry`. -/
def yamap_case (m : yaschema) (regex : Pattern) (schema : yaschema)
    (t : PairFn) (repeated required : Bool) : yaschema :=
  yamap_entry m (yaentry_case (yaentry_mk required repeated) regex schema t)

/-- Embedding of `yamap.zero_or_one`: an optional, non-repeatable entry. -/
def yamap_zero_or_one (m : yaschema) (regex : Pattern) (schema : yaschema)
    (t : PairFn) : yaschema :=
  yamap_case m regex schema t false false

/-- Embedding of `yamap.exactly_one`: a required, non-repeatable entry. -/
def yamap_exactly_one (m : yaschema) (regex : Pattern) (schema : yaschema)
    (t : PairFn) : yaschema :=
  yamap_case m regex schema t false true

/-- Embedding of `yamap.zero_or_more`: an optional, repeatable entry. -/
def yamap_zero_or_more (m : yaschema) (regex : Pattern) (schema : yaschema)
    (t : PairFn) : yaschema :=
  yamap_case m regex schema t true false

/-- Embedding of `yamap.one_or_more`: a required, repeatable entry. -/
def yamap_one_or_more (m : yaschema) (regex : Pattern) (schema : yaschema)
    (t : PairFn) : yaschema :=
  yamap_case m regex schema t true true

/-- Embedding of `yaseq.case`: register an additional item schema
option on the sequence's alternation
(`self.copy(schema = self.schema.case(schema))`). -/
def yaseq_case (s : yaschema) (entry : yaschema) : yaschema :=
  match s with
  | .yaseq tag type schema => .yaseq tag type (yaoneof_case schema entry)
  | other => other

/-- Embedding of `yamap.__init__`: the `tag` argument defaults to the
class tag pattern and the `type` argument to the class default `dict`
(the outer `Option` is `MISSING`-ness, the inner one is Python `None`).
Combining `squash` with `unpack` raises `SchemaError`, as does either
flag with `type=None`; otherwise the declared transform wraps the
type.  A constructed value carries no entries yet. -/
def yamap_mk (tag : Option Pattern) (type : Option (Option TypeFn))
    (squash unpack : Bool) : Except Err yaschema :=
  let ty : Option TypeFn :=
    match type with
    | none => some .dictT
    | some t => t
  if squash && unpack then
    .error (.schemaError "squash and unpack cannot be used at the same time")
  else
    match ty with
    | none =>
        if squash || unpack then
          .error (.schemaError "squash and unpack require a type")
        else .ok (.yamap (tag.getD mapTagPattern) none [])
    | some t =>
        let t2 : TypeFn :=
          if squash then .squashedT t else if unpack then .unpackedMapT t else t
        .ok (.yamap (tag.getD mapTagPattern) (some t2) [])

/-- Embedding of `yaseq.__init__`: the `type` argument defaults to the
class default `list`; `unpack` with `type=None` raises `SchemaError`,
otherwise `unpack` wraps the type in `unpacked_seq`.  A constructed
value starts with an empty alternation. -/
def yaseq_mk (tag : Option Pattern) (type : Option (Option TypeFn))
    (unpack : Bool) : Except Err yaschema :=
  let ty : Option TypeFn :=
    match type with
    | none => some .listT
    | some t => t
  match ty with
  | none =>
      if unpack then .error (.schemaError "unpack requires a type")
      else .ok (.yaseq (tag.getD seqTagPattern) none (.yaoneof []))
  | some t =>
      .ok (.yaseq (tag.getD seqTagPattern)
            (some (if unpack then .unpackedSeqT t else t)) (.yaoneof []))

mutual

/-- Boolean structural equality of nodes (used only to count
occurrences of a node in the ghost traces below). -/
def nodeBEq : Node → Node → Bool
  | .scalar t1 v1, .scalar t2 v2 => t1 == t2 && v1 == v2
  | .seq t1 i1, .seq t2 i2 => t1 == t2 && nodeListBEq i1 i2
  | .map t1 p1, .map t2 p2 => t1 == t2 && nodePairsBEq p1 p2
  | _, _ => false

/-- Pointwise `nodeBEq` on node lists. -/
def nodeListBEq : List Node → List Node → Bool
  | [], [] => true
  | a :: as, b :: bs => nodeBEq a b && nodeListBEq as bs
  | _, _ => false

/-- Pointwise `nodeBEq` on node pair lists. -/
def nodePairsBEq : List (Node × Node) → List (Node × Node) → Bool
  | [], [] => true
  | (k1, v1) :: as, (k2, v2) :: bs => nodeBEq k1 k2 && nodeBEq v1 v2 && nodePairsBEq as bs
  | _, _ => false

end

/-- Number of occurrences of a node in a list. -/
def countNode (n : Node) (l : List Node) : Nat :=
  (l.filter (nodeBEq n)).length

mutual

/-- Ghost instrumentation: the list of nodes passed to `matches` calls
(outermost first) when evaluating `yaschema.matches s node`, mirroring
its call structure: every `matches` entry receives its node argument,
and an alternation additionally forwards the node to each candidate it
tries. -/
def matchesTrace : yaschema → Node → List Node
  | .yaoneof entries, node => node :: oneofTrace entries node
  | .yaexpand _ value_schema _, node => node :: matchesTrace value_schema node
  | .yascalar _ _ _ _, node => [node]
  | .yamap _ _ _, node => [node]
  | .yaseq _ _ _, node => [node]

/-- Ghost instrumentation of the `yaoneof.matches` loop: candidates are
tried in order until the first success. -/
def oneofTrace : List yaschema → Node → List Node
  | [], _ => []
  | e :: rest, node =>
      matchesTrace e node ++
        (match yaschema.matches e node with
         | .ok _ => []
         | .error _ => oneofTrace rest node)

end

/-- Ghost instrumentation of the `yaentry.match_item` loop: each case
whose key pattern matches probes its value schema with a `matches`
call, stopping at the first success. -/
def matchItemKeysTrace : List (Pattern × yaschema × PairFn) → String → Node → List Node
  | [], _, _ => []
  | (regex, schema, _) :: rest, key, value =>
      if regex.fullmatch key then
        matchesTrace schema value ++
          (match yaschema.matches schema value with
           | .ok _ => []
           | .error _ => matchItemKeysTrace rest key value)
      else matchItemKeysTrace rest key value

/-- Ghost instrumentation of the `zip_first` scan over the entries of a
mapping: each entry's `match_item` probes until the first hit. -/
def entriesScanTrace : List yaentry → String → Node → List Node
  | [], _, _ => []
  | e :: rest, key, value =>
      matchItemKeysTrace e.keys key value ++
        (match match_item e key value with
         | some _ => []
         | none => entriesScanTrace rest key value)

/-- Ghost instrumentation of one iteration of the scanning loop of
`yamap.match_children`. -/
def scanPairTrace (entries : List yaentry) (kv : Node × Node) : List Node :=
  if kv.1.tag ≠ "tag:yaml.org,2002:str" then []
  else entriesScanTrace entries kv.1.scalarValue kv.2

/-- Ghost instrumentation of the whole scanning loop (stopping at the
first raising pair). -/
def pairsScanTrace (entries : List yaentry) : List (Node × Node) → List Node
  | [] => []
  | kv :: rest =>
      scanPairTrace entries kv ++
        (match scanPair entries kv with
         | .ok _ => pairsScanTrace entries rest
         | .error _ => [])

/-- Ghost instrumentation of the item loop of `yaseq.match_children`. -/
def seqScanTrace (schema : yaschema) : List Node → List Node
  | [] => []
  | item :: rest =>
      matchesTrace schema item ++
        (match yaschema.matches schema item with
         | .ok _ => seqScanTrace schema rest
         | .error _ => [])

/-- Ghost instrumentation of `yaschema.match_children`. -/
def matchChildrenTrace : yaschema → Node → List Node
  | .yascalar _ _ _ _, _ => []
  | .yaoneof _, _ => []
  | .yaexpand _ value_schema _, node => matchesTrace value_schema node
  | .yamap _ _ entries, node =>
      (match node with
       | .map _ pairs => pairsScanTrace entries pairs.reverse
       | _ => [])
  | .yaseq _ _ schema, node =>
      (match node with
       | .seq _ items => seqScanTrace schema items.reverse
       | _ => [])

/-- Ghost instrumentation of one iteration of the mapper loop: an
unvisited frame runs `match_children` (with its internal probing
`matches` calls), and a leaf frame is additionally re-matched
(`top.schema.matches(top.node)`) before `construct_leaf`. -/
def stepTrace : List Ctx → List Node
  | [] => []
  | c :: _ =>
      match c.todo with
      | [] => []
      | (n, s) :: _ =>
          matchChildrenTrace s n ++
            (match yaschema.match_children s n with
             | .ok none => matchesTrace s n
             | _ => [])

/-- Ghost instrumentation of the fuelled mapper loop. -/
def runTraceF (constructor : SafeConstructor) : Nat → List Ctx → List Node
  | 0, _ => []
  | fuel + 1, st =>
      stepTrace st ++
        (match step constructor st with
         | .next st2 => runTraceF constructor fuel st2
         | _ => [])

/-- Ghost instrumentation of `load_and_map`: all nodes passed to
`matches` calls over one whole load, in call order. -/
def loadTrace (constructor : SafeConstructor) (schema : yaschema) (node : Node) :
    List Node :=
  matchesTrace schema node ++
    (match yaschema.matches schema node with
     | .ok ms => runTraceF constructor (stMeasure (initState node ms) + 1) (initState node ms)
     | .error _ => [])

/-- Modelled from the spec: the external `SafeConstructor`
implementation (ruamel's, outside `src/`) is specified only through the
interface the core needs (spec sections 1 and 6): `construct_scalar`
returns the raw scalar payload string, and the typed constructors parse
booleans/numbers from the payload.  This value realises that contract;
only the `construct_scalar` component is relied on in a theorem. -/
def specSafeConstructor : SafeConstructor :=
  { construct_yaml_bool := fun n => .vbool (n.scalarValue == "true")
    construct_yaml_float := fun n => .vstr n.scalarValue
    construct_yaml_int := fun n => .vint ((n.scalarValue.toInt?).getD 0)
    construct_scalar := fun n => .vstr n.scalarValue }

/-- A concrete key pattern (`re.compile('command')`) used in witnesses. -/
def cmdPattern : Pattern := { pattern := "command", fullmatch := fun s => s == "command" }

/-- A concrete two-alternative key pattern source split into two
separate cases (`arg` and `argument`) used in witnesses. -/
def argPattern : Pattern := { pattern := "arg", fullmatch := fun s => s == "arg" }

/-- The second case pattern of the multi-case entry used in witnesses. -/
def argumentPattern : Pattern :=
  { pattern := "argument", fullmatch := fun s => s == "argument" }

/-- Witness fixture: `yaseq().case(yastr)` with the default `list`
output type. -/
def strSeqSchema : yaschema := .yaseq seqTagPattern (some .listT) (.yaoneof [yastrDefault])

/-- Witness fixture: `yamap().exactly_one('command', yastr)` with the
default `dict` output type. -/
def cmdMapSchema : yaschema :=
  yamap_exactly_one (.yamap mapTagPattern (some .dictT) []) cmdPattern yastrDefault pair

/-- Witness fixture: one required, non-repeatable `yaentry` with two
key-pattern cases (`yaentry(required=True).case('arg', yastr).case('argument', yastr)`). -/
def multiCaseEntry : yaentry :=
  yaentry_case (yaentry_case (yaentry_mk true false) argPattern yastrDefault pair)
    argumentPattern yastrDefault pair

/-- Witness fixture: a mapping schema carrying `multiCaseEntry` as its
single entry rule. -/
def multiCaseMapSchema : yaschema :=
  yamap_entry (.yamap mapTagPattern (some .dictT) []) multiCaseEntry

/-- Shorthand for a plain-string scalar node. -/
def strNode (s : String) : Node := .scalar "tag:yaml.org,2002:str" s

mutual

/-- Size of a schema along the recursion structure of `matches`
(alternation entries and the `yaexpand` value schema). -/
def schemaSize : yaschema → Nat
  | .yaoneof entries => 1 + schemaListSize entries
  | .yaexpand _ value_schema _ => 1 + schemaSize value_schema
  | .yascalar _ _ _ _ => 1
  | .yamap _ _ _ => 1
  | .yaseq _ _ _ => 1

/-- Sum of `schemaSize` over a list. -/
def schemaListSize : List yaschema → Nat
  | [] => 0
  | s :: rest => schemaSize s + schemaListSize rest

end

theorem schemaSize_pos (s : yaschema) : 0 < schemaSize s := by
  cases s <;> simp [schemaSize]

theorem schemaListSize_le_of_mem {s : yaschema} {l : List yaschema} (h : s ∈ l) :
    schemaSize s ≤ schemaListSize l := by
  induction l with
  | nil => cases h
  | cons a rest ih =>
      rcases List.mem_cons.mp h with rfl | h2
      · simp [schemaListSize]
      · have := ih h2
        simp [schemaListSize]
        omega


/-- A successful alternation match is the match of one of its entries. -/
theorem matchesOneof_ok_mem {l : List yaschema} {n : Node} {m : yaschema}
    (h : yaschema.matchesOneof l n = .ok m) :
    ∃ s ∈ l, yaschema.matches s n = .ok m := by
  induction l with
  | nil => simp [yaschema.matchesOneof] at h
  | cons a rest ih =>
      rw [yaschema.matchesOneof] at h
      rcases he : yaschema.matches a n with e | r
      · rw [he] at h
        cases e with
        | noMatchingType n2 =>
            rcases ih h with ⟨s, hs, hm⟩
            exact ⟨s, List.mem_cons_of_mem _ hs, hm⟩
        | mappingError msg nd => simp at h
        | schemaError msg => simp at h
        | typeError msg => simp at h
        | notImplementedError => simp at h
        | runtimeError msg => simp at h
        | internalError => simp at h
      · rw [he] at h
        simp at h
        exact ⟨a, List.mem_cons_self a rest, by rw [he, h]⟩

/-- A failing alternation either exhausted its entries (raising at the
node it was given) or propagated a non-`NoMatchingType` error of one of
its entries. -/
theorem matchesOneof_error_cases {l : List yaschema} {n : Node} {e : Err}
    (h : yaschema.matchesOneof l n = .error e) :
    e = .noMatchingType n ∨
      ∃ s ∈ l, yaschema.matches s n = .error e ∧ ∀ n2, e ≠ .noMatchingType n2 := by
  induction l with
  | nil =>
      rw [yaschema.matchesOneof] at h
      simp at h
      exact Or.inl h.symm
  | cons a rest ih =>
      rw [yaschema.matchesOneof] at h
      rcases he : yaschema.matches a n with e2 | r
      · rw [he] at h
        cases e2 with
        | noMatchingType n2 =>
            rcases ih h with h2 | ⟨s, hs, hm, hne⟩
            · exact Or.inl h2
            · exact Or.inr ⟨s, List.mem_cons_of_mem _ hs, hm, hne⟩
        | mappingError msg nd =>
            simp at h
            exact Or.inr ⟨a, List.mem_cons_self a rest, by rw [he, h], by simp [← h]⟩
        | schemaError msg =>
            simp at h
            exact Or.inr ⟨a, List.mem_cons_self a rest, by rw [he, h], by simp [← h]⟩
        | typeError msg =>
            simp at h
            exact Or.inr ⟨a, List.mem_cons_self a rest, by rw [he, h], by simp [← h]⟩
        | notImplementedError =>
            simp at h
            exact Or.inr ⟨a, List.mem_cons_self a rest, by rw [he, h], by simp [← h]⟩
        | runtimeError msg =>
            simp at h
            exact Or.inr ⟨a, List.mem_cons_self a rest, by rw [he, h], by simp [← h]⟩
        | internalError =>
            simp at h
            exact Or.inr ⟨a, List.mem_cons_self a rest, by rw [he, h], by simp [← h]⟩
      · rw [he] at h
        simp at h

/-- `matches` only ever raises `NoMatchingType` (the recoverable
no-match probe signal). -/
theorem matches_error_shape : ∀ (s : yaschema) (n : Node) (e : Err),
    yaschema.matches s n = .error e → ∃ n2, e = .noMatchingType n2 := by
  have key : ∀ (k : Nat) (s : yaschema), schemaSize s ≤ k → ∀ (n : Node) (e : Err),
      yaschema.matches s n = .error e → ∃ n2, e = .noMatchingType n2 := by
    intro k
    induction k with
    | zero =>
        intro s hs
        have := schemaSize_pos s
        omega
    | succ k ih =>
        intro s hs n e h
        cases s with
        | yaoneof entries =>
            rw [show yaschema.matches (.yaoneof entries) n =
                  yaschema.matchesOneof entries n from rfl] at h
            rcases matchesOneof_error_cases h with rfl | ⟨s2, hmem, hs2, _⟩
            · exact ⟨n, rfl⟩
            · have hsz : schemaSize s2 ≤ k := by
                have := schemaListSize_le_of_mem hmem
                simp [schemaSize] at hs
                omega
              exact ih s2 hsz n e hs2
        | yaexpand key2 vs t =>
            rw [show yaschema.matches (.yaexpand key2 vs t) n =
                  yaschema.matches vs n from rfl] at h
            have hsz : schemaSize vs ≤ k := by
              simp [schemaSize] at hs
              omega
            exact ih vs hsz n e h
        | yascalar tag ty val con =>
            simp only [yaschema.matches] at h
            rcases hf : tag.fullmatch n.tag with _ | _
            · rw [hf] at h
              simp at h
              exact ⟨n, h.symm⟩
            · rw [hf] at h
              simp at h
              cases val with
              | none => simp at h
              | some vp =>
                  simp at h
                  rcases hv : vp.fullmatch n.scalarValue with _ | _
                  · rw [hv] at h
                    simp at h
                    exact ⟨n, h.symm⟩
                  · rw [hv] at h
                    simp at h
        | yamap tag ty entries =>
            simp only [yaschema.matches] at h
            rcases hf : tag.fullmatch n.tag with _ | _
            · rw [hf] at h
              simp at h
              exact ⟨n, h.symm⟩
            · rw [hf] at h
              simp at h
        | yaseq tag ty sch =>
            simp only [yaschema.matches] at h
            rcases hf : tag.fullmatch n.tag with _ | _
            · rw [hf] at h
              simp at h
              exact ⟨n, h.symm⟩
            · rw [hf] at h
              simp at h
  intro s
  exact key (schemaSize s) s le_rfl

/-- The result of a successful `matches` is never a `yaexpand` (only
`yamap.match_children` constructs those explicitly): matching always
returns one of the concrete node schemas. -/
theorem schExtra_matches : ∀ (s : yaschema) (n : Node) (m : yaschema),
    yaschema.matches s n = .ok m → schExtra m = 0 := by
  have key : ∀ (k : Nat) (s : yaschema), schemaSize s ≤ k → ∀ (n : Node) (m : yaschema),
      yaschema.matches s n = .ok m → schExtra m = 0 := by
    intro k
    induction k with
    | zero =>
        intro s hs
        have := schemaSize_pos s
        omega
    | succ k ih =>
        intro s hs n m h
        cases s with
        | yaoneof entries =>
            rw [show yaschema.matches (.yaoneof entries) n =
                  yaschema.matchesOneof entries n from rfl] at h
            rcases matchesOneof_ok_mem h with ⟨s2, hmem, hs2⟩
            have hsz : schemaSize s2 ≤ k := by
              have := schemaListSize_le_of_mem hmem
              simp [schemaSize] at hs
              omega
            exact ih s2 hsz n m hs2
        | yaexpand key2 vs t =>
            rw [show yaschema.matches (.yaexpand key2 vs t) n =
                  yaschema.matches vs n from rfl] at h
            have hsz : schemaSize vs ≤ k := by
              simp [schemaSize] at hs
              omega
            exact ih vs hsz n m h
        | yascalar tag ty val con =>
            simp only [yaschema.matches] at h
            rcases hf : tag.fullmatch n.tag with _ | _
            · rw [hf] at h
              simp at h
            · rw [hf] at h
              simp at h
              cases val with
              | none =>
                  simp at h
                  rw [← h]
                  rfl
              | some vp =>
                  simp at h
                  rcases hv : vp.fullmatch n.scalarValue with _ | _
                  · rw [hv] at h
                    simp at h
                  · rw [hv] at h
                    simp at h
                    rw [← h]
                    rfl
        | yamap tag ty entries =>
            simp only [yaschema.matches] at h
            rcases hf : tag.fullmatch n.tag with _ | _
            · rw [hf] at h
              simp at h
            · rw [hf] at h
              simp at h
              rw [← h]
              rfl
        | yaseq tag ty sch =>
            simp only [yaschema.matches] at h
            rcases hf : tag.fullmatch n.tag with _ | _
            · rw [hf] at h
              simp at h
            · rw [hf] at h
              simp at h
              rw [← h]
              rfl
  intro s
  exact key (schemaSize s) s le_rfl

/-- Re-matching an already-matched node is idempotent: if `s.matches n`
returned the concrete schema `m`, then `m.matches n` returns `m`
itself.  This is the fact that makes the mapper's re-match of leaf
frames at construct time (`top.schema.matches(top.node)` in
`mapper.py`) observationally harmless. -/
theorem matches_idem : ∀ (s : yaschema) (n : Node) (m : yaschema),
    yaschema.matches s n = .ok m → yaschema.matches m n = .ok m := by
  have key : ∀ (k : Nat) (s : yaschema), schemaSize s ≤ k → ∀ (n : Node) (m : yaschema),
      yaschema.matches s n = .ok m → yaschema.matches m n = .ok m := by
    intro k
    induction k with
    | zero =>
        intro s hs
        have := schemaSize_pos s
        omega
    | succ k ih =>
        intro s hs n m h
        cases s with
        | yaoneof entries =>
            rw [show yaschema.matches (.yaoneof entries) n =
                  yaschema.matchesOneof entries n from rfl] at h
            rcases matchesOneof_ok_mem h with ⟨s2, hmem, hs2⟩
            have hsz : schemaSize s2 ≤ k := by
              have := schemaListSize_le_of_mem hmem
              simp [schemaSize] at hs
              omega
            exact ih s2 hsz n m hs2
        | yaexpand key2 vs t =>
            rw [show yaschema.matches (.yaexpand key2 vs t) n =
                  yaschema.matches vs n from rfl] at h
            have hsz : schemaSize vs ≤ k := by
              simp [schemaSize] at hs
              omega
            exact ih vs hsz n m h
        | yascalar tag ty val con =>
            simp only [yaschema.matches] at h
            rcases hf : tag.fullmatch n.tag with _ | _
            · rw [hf] at h
              simp at h
            · rw [hf] at h
              simp at h
              cases val with
              | none =>
                  simp at h
                  rw [← h]
                  simp only [yaschema.matches]
                  rw [hf]
                  simp
              | some vp =>
                  simp at h
                  rcases hv : vp.fullmatch n.scalarValue with _ | _
                  · rw [hv] at h
                    simp at h
                  · rw [hv] at h
                    simp at h
                    rw [← h]
                    simp only [yaschema.matches]
                    rw [hf, hv]
                    simp
        | yamap tag ty entries =>
            simp only [yaschema.matches] at h
            rcases hf : tag.fullmatch n.tag with _ | _
            · rw [hf] at h
              simp at h
            · rw [hf] at h
              simp at h
              rw [← h]
              simp only [yaschema.matches]
              rw [hf]
              simp
        | yaseq tag ty sch =>
            simp only [yaschema.matches] at h
            rcases hf : tag.fullmatch n.tag with _ | _
            · rw [hf] at h
              simp at h
            · rw [hf] at h
              simp at h
              rw [← h]
              simp only [yaschema.matches]
              rw [hf]
              simp
  intro s
  exact key (schemaSize s) s le_rfl

theorem exMapM_ok_length {A B : Type} {f : A → Except Err B} :
    ∀ {l : List A} {ys : List B}, exMapM f l = .ok ys → ys.length = l.length := by
  intro l
  induction l with
  | nil => intro ys h; simp [exMapM] at h; simp [← h]
  | cons a rest ih =>
      intro ys h
      rw [exMapM] at h
      rcases ha : f a with e | b
      · rw [ha] at h; simp at h
      · rw [ha] at h
        rcases hr : exMapM f rest with e | bs
        · rw [hr] at h; simp at h
        · rw [hr] at h
          simp at h
          rw [← h]
          simp [ih hr]

theorem exMapM_ok_get {A B : Type} {f : A → Except Err B} :
    ∀ {l : List A} {ys : List B}, exMapM f l = .ok ys →
      ∀ (i : Nat) (h1 : i < l.length) (h2 : i < ys.length),
        f (l.get ⟨i, h1⟩) = .ok (ys.get ⟨i, h2⟩) := by
  intro l
  induction l with
  | nil => intro ys h i h1 h2; simp at h1
  | cons a rest ih =>
      intro ys h i h1 h2
      rw [exMapM] at h
      rcases ha : f a with e | b
      · rw [ha] at h; simp at h
      · rw [ha] at h
        rcases hr : exMapM f rest with e | bs
        · rw [hr] at h; simp at h
        · rw [hr] at h
          simp at h
          subst h
          cases i with
          | zero => simpa using ha
          | succ j =>
              have h1j : j < rest.length := by simpa using h1
              have h2j : j < bs.length := by simpa using h2
              simpa using ih hr j h1j h2j

theorem wTodo_cons (p : Node × yaschema) (l : List (Node × yaschema)) :
    wTodo (p :: l) = wItem p + wTodo l := by
  simp [wTodo]

theorem wTodo_reverse (l : List (Node × yaschema)) : wTodo l.reverse = wTodo l := by
  simp [wTodo, List.sum_reverse]

theorem nodeSize_pos (n : Node) : 0 < nodeSize n := by
  cases n <;> simp [nodeSize]

theorem wItem_pos (p : Node × yaschema) : 4 ≤ wItem p := by
  have := nodeSize_pos p.1
  simp [wItem]
  omega

theorem nodeListSize_eq_sum : ∀ (l : List Node), nodeListSize l = (l.map nodeSize).sum := by
  intro l
  induction l with
  | nil => rfl
  | cons a rest ih => simp [nodeListSize, ih]

theorem nodeListSize_reverse (l : List Node) : nodeListSize l.reverse = nodeListSize l := by
  simp [nodeListSize_eq_sum, List.sum_reverse]

theorem nodePairsSize_eq_sum : ∀ (l : List (Node × Node)),
    nodePairsSize l = (l.map (fun p => nodeSize p.1 + nodeSize p.2)).sum := by
  intro l
  induction l with
  | nil => rfl
  | cons a rest ih => simp [nodePairsSize, ih]

theorem nodePairsSize_reverse (l : List (Node × Node)) :
    nodePairsSize l.reverse = nodePairsSize l := by
  simp [nodePairsSize_eq_sum, List.sum_reverse]

/-- Shape inversion for a successful `scanPair`: the produced child is
the pair's value node wrapped in a `yaexpand`. -/
theorem scanPair_ok_shape {entries : List yaentry} {kv : Node × Node}
    {r : Nat × (Node × yaschema)} (h : scanPair entries kv = .ok r) :
    ∃ i key m t, r = (i, (kv.2, .yaexpand key m t)) ∧
      yaschema.matches m kv.2 = .ok m := by
  rw [scanPair] at h
  by_cases htag : kv.1.tag = "tag:yaml.org,2002:str"
  · simp [htag] at h
    rcases hz : zip_first (fun e => match_item e kv.1.scalarValue kv.2) entries
      with _ | ⟨i, e, key, m, t⟩
    · rw [hz] at h; simp at h
    · rw [hz] at h
      simp at h
      refine ⟨i, key, m, t, h.symm, ?_⟩
      -- the match result in a zip_first hit comes from matchItemKeys,
      -- whose successes are matches results; idempotence applies
      have hmem : ∃ e2 ∈ entries, match_item e2 kv.1.scalarValue kv.2 = some (key, m, t) := by
        clear h
        have : ∀ (j : Nat) (l : List yaentry),
            zipFirstFrom (fun e => match_item e kv.1.scalarValue kv.2) j l =
              some (i, e, key, m, t) →
            ∃ e2 ∈ l, match_item e2 kv.1.scalarValue kv.2 = some (key, m, t) := by
          intro j l
          induction l generalizing j with
          | nil => intro hz2; simp [zipFirstFrom] at hz2
          | cons a rest ih =>
              intro hz2
              rw [zipFirstFrom] at hz2
              rcases hm : match_item a kv.1.scalarValue kv.2 with _ | b
              · rw [hm] at hz2
                rcases ih (j + 1) hz2 with ⟨e2, he2, hh⟩
                exact ⟨e2, List.mem_cons_of_mem _ he2, hh⟩
              · rw [hm] at hz2
                simp at hz2
                exact ⟨a, List.mem_cons_self a rest, by rw [hm, hz2.2.2]⟩
        exact this 0 entries hz
      rcases hmem with ⟨e2, _, hmi⟩
      rw [match_item] at hmi
      have : ∀ (cs : List (Pattern × yaschema × PairFn)),
          matchItemKeys cs kv.1.scalarValue kv.2 = some (key, m, t) →
          yaschema.matches m kv.2 = .ok m := by
        intro cs
        induction cs with
        | nil => intro hk; simp [matchItemKeys] at hk
        | cons c rest ih =>
            intro hk
            rcases c with ⟨regex, schema, tf⟩
            rw [matchItemKeys] at hk
            by_cases hre : regex.fullmatch kv.1.scalarValue
            · simp [hre] at hk
              rcases hms : yaschema.matches schema kv.2 with e3 | m2
              · rw [hms] at hk
                exact ih hk
              · rw [hms] at hk
                simp at hk
                rw [← hk.2.1]
                exact matches_idem schema kv.2 m2 hms
            · simp [hre] at hk
              exact ih hk
      exact this e2.keys hmi
  · simp [htag] at h
/-- Weight of the children yielded by `yaseq.match_children`: each item
contributes its own node weight (the matched schema is never a
`yaexpand`). -/
theorem seq_kids_w {sch : yaschema} : ∀ {l : List Node} {kids : List (Node × yaschema)},
    exMapM (fun item =>
      match yaschema.matches sch item with
      | .error e => .error e
      | .ok m => .ok (item, m)) l = .ok kids →
    wTodo kids = 4 * nodeListSize l := by
  intro l
  induction l with
  | nil =>
      intro kids h
      simp [exMapM] at h
      subst h
      simp [wTodo, nodeListSize]
  | cons a rest ih =>
      intro kids h
      rw [exMapM] at h
      rcases ha : yaschema.matches sch a with e | m
      · rw [ha] at h; simp at h
      · rw [ha] at h
        simp at h
        rcases hr : exMapM (fun item =>
            match yaschema.matches sch item with
            | .error e => .error e
            | .ok m => .ok (item, m)) rest with e | bs
        · rw [hr] at h; simp at h
        · rw [hr] at h
          simp at h
          rw [← h, wTodo_cons, ih hr]
          have h2 : schExtra m = 0 := schExtra_matches sch a m ha
          simp [wItem, h2, nodeListSize]
          ring

/-- Weight of the children yielded by the scanning loop of
`yamap.match_children`: bounded by the weight of the scanned pairs
(the key node of each pair pays for the `yaexpand` surcharge). -/
theorem scan_kids_w {entries : List yaentry} :
    ∀ {l : List (Node × Node)} {hits : List (Nat × (Node × yaschema))},
    exMapM (scanPair entries) l = .ok hits →
    wTodo (hits.map (fun h => h.2)) ≤ 4 * nodePairsSize l := by
  intro l
  induction l with
  | nil =>
      intro hits h
      simp [exMapM] at h
      subst h
      simp [wTodo, nodePairsSize]
  | cons kv rest ih =>
      intro hits h
      rw [exMapM] at h
      rcases ha : scanPair entries kv with e | r
      · rw [ha] at h; simp at h
      · rw [ha] at h
        rcases hr : exMapM (scanPair entries) rest with e | bs
        · rw [hr] at h; simp at h
        · rw [hr] at h
          simp at h
          rcases scanPair_ok_shape ha with ⟨i, key, m, t, rfl, _⟩
          rw [← h]
          have hkpos := nodeSize_pos kv.1
          have hih := ih hr
          rcases kv with ⟨k, v⟩
          simp only [List.map_cons, wTodo_cons, nodePairsSize] at *
          have hw : wItem (v, .yaexpand key m t) = 4 * nodeSize v + 2 := by
            simp [wItem, schExtra]
          omega

/-- The key inequality behind termination: when `match_children`
produces children, their total weight is strictly below the weight of
the expanded frame (with room for the frame's own pop step). -/
theorem match_children_bound {s : yaschema} {n : Node} {kids : List (Node × yaschema)}
    (h : yaschema.match_children s n = .ok (some kids)) :
    wTodo kids + 2 ≤ wItem (n, s) := by
  cases s with
  | yascalar tag ty val con => simp [yaschema.match_children] at h
  | yaoneof entries => simp [yaschema.match_children] at h
  | yaexpand key vs t =>
      simp only [yaschema.match_children] at h
      rcases hm : yaschema.matches vs n with e | m
      · rw [hm] at h; simp at h
      · rw [hm] at h
        simp at h
        have h2 : schExtra m = 0 := schExtra_matches vs n m hm
        rw [← h]
        have h3 : wTodo [(n, m)] = 4 * nodeSize n := by
          simp [wTodo, wItem, h2]
        have h4 : wItem (n, .yaexpand key vs t) = 4 * nodeSize n + 2 := by
          simp [wItem, schExtra]
        omega
  | yamap tag ty entries =>
      cases n with
      | scalar t v => simp [yaschema.match_children] at h
      | seq t items => simp [yaschema.match_children] at h
      | map t pairs =>
          simp only [yaschema.match_children] at h
          rcases hsc : exMapM (scanPair entries) pairs.reverse with e | hits
          · rw [hsc] at h; simp at h
          · rw [hsc] at h
            simp only [] at h
            rcases hck : checkEntries (.map t pairs) entries hits with e | u
            · rw [hck] at h; simp at h
            · rw [hck] at h
              simp at h
              have hb := scan_kids_w hsc
              rw [nodePairsSize_reverse] at hb
              rw [← h]
              have hw : wItem (Node.map t pairs, yaschema.yamap tag ty entries) =
                  4 * (1 + nodePairsSize pairs) := by
                simp [wItem, schExtra, nodeSize]
              omega
  | yaseq tag ty sch =>
      cases n with
      | scalar t v => simp [yaschema.match_children] at h
      | map t pairs => simp [yaschema.match_children] at h
      | seq t items =>
          simp only [yaschema.match_children] at h
          rcases hsc : exMapM (fun item =>
              match yaschema.matches sch item with
              | .error e => .error e
              | .ok m => .ok (item, m)) items.reverse with e | kids2
          · rw [hsc] at h; simp at h
          · rw [hsc] at h
            simp at h
            have hb := seq_kids_w hsc
            rw [nodeListSize_reverse] at hb
            rw [← h, hb]
            have hw : wItem (Node.seq t items, yaschema.yaseq tag ty sch) =
                4 * (1 + nodeListSize items) := by
              simp [wItem, schExtra, nodeSize]
            omega

theorem stMeasure_cons (c : Ctx) (cs : List Ctx) :
    stMeasure (c :: cs) = ctxMeasure c + stMeasure cs := by
  simp [stMeasure]

theorem ctxMeasure_pos (c : Ctx) : 0 < ctxMeasure c := by
  simp [ctxMeasure]

/-- Inversion of a `next` outcome of `deliver`: the receiving frame has
a parent and only its `children` list changes. -/
theorem deliver_next {v : Value} {cs st2 : List Ctx} (h : deliver v cs = .next st2) :
    ∃ c2 cs2 p, cs = c2 :: cs2 ∧ c2.ret = some p ∧
      st2 = { c2 with done := c2.done ++ [v] } :: cs2 := by
  cases cs with
  | nil => simp [deliver] at h
  | cons c2 cs2 =>
      rw [deliver] at h
      rcases hret : c2.ret with _ | p
      · rw [hret] at h; simp at h
      · rw [hret] at h
        simp at h
        rw [← hret] at h
        exact ⟨c2, cs2, p, rfl, hret, h.symm⟩

/-- Appending to a frame's `children` does not change the measure. -/
theorem deliver_next_measure {v : Value} {cs st2 : List Ctx}
    (h : deliver v cs = .next st2) : stMeasure st2 = stMeasure cs := by
  rcases deliver_next h with ⟨c2, cs2, p, rfl, _, rfl⟩
  rw [stMeasure_cons, stMeasure_cons]
  rfl

/-- Every `next` transition of the mapper loop strictly decreases the
termination measure. -/
theorem step_decrease {C : SafeConstructor} {st st2 : List Ctx}
    (h : step C st = .next st2) : stMeasure st2 < stMeasure st := by
  cases st with
  | nil => simp [step] at h
  | cons c cs =>
      rw [step] at h
      rcases ht : c.todo with _ | ⟨⟨n, s⟩, rest⟩
      · rw [ht] at h
        rcases hret : c.ret with _ | ⟨nn, s⟩
        · rw [hret] at h; simp at h
        · rw [hret] at h
          simp only [] at h
          rcases hr : yaschema.resolve s (.vlist c.done) with e | v
          · rw [hr] at h; simp at h
          · rw [hr] at h
            simp only [] at h
            have hm := deliver_next_measure h
            rw [hm, stMeasure_cons]
            have := ctxMeasure_pos c
            omega
      · rw [ht] at h
        simp only [] at h
        rcases hmc : yaschema.match_children s n with e | kids?
        · rw [hmc] at h; simp at h
        · rw [hmc] at h
          cases kids? with
          | none =>
              rcases hle : leafEval C s n with e | v
              · rw [hle] at h; simp at h
              · rw [hle] at h
                simp only [] at h
                have hm := deliver_next_measure h
                rw [hm, stMeasure_cons, stMeasure_cons]
                have hc : ctxMeasure { c with todo := rest } = 1 + wTodo rest := rfl
                have hc2 : ctxMeasure c = 1 + wTodo c.todo := rfl
                have hw := wItem_pos (n, s)
                rw [hc, hc2, ht, wTodo_cons]
                omega
          | some kids =>
              simp at h
              rw [← h]
              rw [stMeasure_cons, stMeasure_cons, stMeasure_cons]
              have hb := match_children_bound hmc
              have hc1 : ctxMeasure (Ctx.mk (some (n, s)) [] kids.reverse) = 1 + wTodo kids := by
                simp [ctxMeasure, wTodo_reverse]
              have hc2 : ctxMeasure { c with todo := rest } = 1 + wTodo rest := rfl
              have hc3 : ctxMeasure c = 1 + wTodo c.todo := rfl
              rw [hc1, hc2, hc3, ht, wTodo_cons]
              omega

theorem runF_mono {C : SafeConstructor} :
    ∀ {f : Nat} {st : List Ctx} {r : Except Err Value},
      runF C f st = some r → runF C (f + 1) st = some r := by
  intro f
  induction f with
  | zero => intro st r h; simp [runF] at h
  | succ f ih =>
      intro st r h
      rw [runF] at h
      rw [runF]
      rcases hs : step C st with e | st2 | v <;> rw [hs] at h
      · exact h
      · exact ih h
      · exact h

theorem runF_le {C : SafeConstructor} {f f2 : Nat} {st : List Ctx} {r : Except Err Value}
    (h : runF C f st = some r) (hle : f ≤ f2) : runF C f2 st = some r := by
  induction f2 with
  | zero =>
      have : f = 0 := by omega
      subst this
      simp [runF] at h
  | succ f2 ih =>
      rcases Nat.lt_or_ge f (f2 + 1) with h2 | h2
      · exact runF_mono (ih (by omega))
      · have : f = f2 + 1 := by omega
        subst this
        exact h

theorem runF_adequate {C : SafeConstructor} :
    ∀ (f : Nat) (st : List Ctx), stMeasure st < f → (runF C f st).isSome := by
  intro f
  induction f with
  | zero => intro st h; omega
  | succ f ih =>
      intro st h
      rw [runF]
      rcases hs : step C st with e | st2 | v
      · simp
      · have hd := step_decrease hs
        exact ih st2 (by omega)
      · simp

/-- The one-step unfolding of `runRes`: running the machine is one
iteration of the loop followed by running the machine from the
successor state. -/
theorem runRes_eq (C : SafeConstructor) (st : List Ctx) :
    runRes C st =
      match step C st with
      | .failed e => .error e
      | .finished v => .ok v
      | .next st2 => runRes C st2 := by
  rcases hs : step C st with e | st2 | v
  · rw [runRes, runF, hs]
    rfl
  · rw [runRes, runF, hs]
    have hd := step_decrease hs
    have hiso : (runF C (stMeasure st2 + 1) st2).isSome := runF_adequate _ _ (by omega)
    obtain ⟨r, hr⟩ := Option.isSome_iff_exists.mp hiso
    have h2 : runF C (stMeasure st) st2 = some r := runF_le hr (by omega)
    show (runF C (stMeasure st) st2).getD (.error .internalError) = runRes C st2
    rw [h2, runRes, hr]
  · rw [runRes, runF, hs]
    rfl

/-- Matching the loop tail of `runRes_eq` against `deliverRun`. -/
theorem deliverRun_eq (C : SafeConstructor) (v : Value) (cs : List Ctx) :
    (match deliver v cs with
     | .failed e => Except.error e
     | .finished v2 => Except.ok v2
     | .next st2 => runRes C st2) = deliverRun C v cs := by
  cases cs with
  | nil => rfl
  | cons c2 cs2 =>
      rcases hret : c2.ret with _ | p
      · simp [deliver, deliverRun, hret]
      · simp [deliver, deliverRun, hret]

/-- The compositional description of a machine run: a visited branch
frame on top of the stack first evaluates each of its pending children
as an independent sub-run (in list order, stopping at the first error),
then resolves the accumulated child values, then delivers the result
below.  Proved by strong induction on the termination measure. -/
theorem runRes_decompose : ∀ (M : Nat) (C : SafeConstructor) (n : Node) (s : yaschema)
    (done : List Value) (ks : List (Node × yaschema)) (cs : List Ctx),
    stMeasure (Ctx.mk (some (n, s)) done ks :: cs) ≤ M →
    runRes C (Ctx.mk (some (n, s)) done ks :: cs) =
      (match exMapM (fun p => subEval C p.2 p.1) ks with
       | .error e => .error e
       | .ok vs =>
           match yaschema.resolve s (.vlist (done ++ vs)) with
           | .error e => .error e
           | .ok v => deliverRun C v cs) := by
  intro M
  induction M using Nat.strong_induction_on with
  | _ M ih =>
  intro C n s done ks cs hM
  have hms : stMeasure (Ctx.mk (some (n, s)) done ks :: cs) =
      1 + wTodo ks + stMeasure cs := by
    rw [stMeasure_cons]; rfl
  cases ks with
  | nil =>
      rw [runRes_eq]
      show (match
          (match yaschema.resolve s (.vlist done) with
           | .error e => MStep.failed e
           | .ok v => deliver v cs) with
        | .failed e => Except.error e
        | .finished v => Except.ok v
        | .next st2 => runRes C st2) = _
      rcases hr : yaschema.resolve s (.vlist done) with e | v
      · simp [exMapM, hr]
      · simp only [exMapM, List.append_nil, hr]
        exact deliverRun_eq C v cs
  | cons k krest =>
      obtain ⟨kn, ks2⟩ := k
      have hwk := wItem_pos (kn, ks2)
      have hmcons : wTodo ((kn, ks2) :: krest) = wItem (kn, ks2) + wTodo krest :=
        wTodo_cons _ _
      rcases hmc : yaschema.match_children ks2 kn with e | kids?
      · -- the child frame's expansion raises: the whole load aborts,
        -- and the child's sub-run aborts identically at its first step
        have hsub : subEval C ks2 kn = .error e := by
          rw [subEval, initState, runRes_eq]
          show (match
              (match yaschema.match_children ks2 kn with
               | .error e => MStep.failed e
               | .ok none =>
                   (match leafEval C ks2 kn with
                    | .error e => MStep.failed e
                    | .ok v => deliver v (Ctx.mk none [] [] :: ([] : List Ctx)))
               | .ok (some kids) =>
                   MStep.next (Ctx.mk (some (kn, ks2)) [] kids.reverse ::
                     Ctx.mk none [] [] :: ([] : List Ctx))) with
            | .failed e => Except.error e
            | .finished v => Except.ok v
            | .next st2 => runRes C st2) = _
          rw [hmc]
        rw [runRes_eq]
        show (match
            (match yaschema.match_children ks2 kn with
             | .error e => MStep.failed e
             | .ok none =>
                 (match leafEval C ks2 kn with
                  | .error e => MStep.failed e
                  | .ok v => deliver v (Ctx.mk (some (n, s)) done krest :: cs))
             | .ok (some kids) =>
                 MStep.next (Ctx.mk (some (kn, ks2)) [] kids.reverse ::
                   Ctx.mk (some (n, s)) done krest :: cs)) with
          | .failed e => Except.error e
          | .finished v => Except.ok v
          | .next st2 => runRes C st2) = _
        rw [hmc]
        simp [exMapM, hsub]
      · cases kids? with
        | none =>
            -- leaf child: constructed and resolved in place
            rcases hle : leafEval C ks2 kn with e | v
            · have hsub : subEval C ks2 kn = .error e := by
                rw [subEval, initState, runRes_eq]
                show (match
                    (match yaschema.match_children ks2 kn with
                     | .error e => MStep.failed e
                     | .ok none =>
                         (match leafEval C ks2 kn with
                          | .error e => MStep.failed e
                          | .ok v => deliver v (Ctx.mk none [] [] :: ([] : List Ctx)))
                     | .ok (some kids) =>
                         MStep.next (Ctx.mk (some (kn, ks2)) [] kids.reverse ::
                           Ctx.mk none [] [] :: ([] : List Ctx))) with
                  | .failed e => Except.error e
                  | .finished v => Except.ok v
                  | .next st2 => runRes C st2) = _
                rw [hmc, hle]
              rw [runRes_eq]
              show (match
                  (match yaschema.match_children ks2 kn with
                   | .error e => MStep.failed e
                   | .ok none =>
                       (match leafEval C ks2 kn with
                        | .error e => MStep.failed e
                        | .ok v => deliver v (Ctx.mk (some (n, s)) done krest :: cs))
                   | .ok (some kids) =>
                       MStep.next (Ctx.mk (some (kn, ks2)) [] kids.reverse ::
                         Ctx.mk (some (n, s)) done krest :: cs)) with
                | .failed e => Except.error e
                | .finished v => Except.ok v
                | .next st2 => runRes C st2) = _
              rw [hmc, hle]
              simp [exMapM, hsub]
            · have hsub : subEval C ks2 kn = .ok v := by
                rw [subEval, initState, runRes_eq]
                show (match
                    (match yaschema.match_children ks2 kn with
                     | .error e => MStep.failed e
                     | .ok none =>
                         (match leafEval C ks2 kn with
                          | .error e => MStep.failed e
                          | .ok v => deliver v (Ctx.mk none [] [] :: ([] : List Ctx)))
                     | .ok (some kids) =>
                         MStep.next (Ctx.mk (some (kn, ks2)) [] kids.reverse ::
                           Ctx.mk none [] [] :: ([] : List Ctx))) with
                  | .failed e => Except.error e
                  | .finished v => Except.ok v
                  | .next st2 => runRes C st2) = _
                rw [hmc, hle]
                rfl
              rw [runRes_eq]
              show (match
                  (match yaschema.match_children ks2 kn with
                   | .error e => MStep.failed e
                   | .ok none =>
                       (match leafEval C ks2 kn with
                        | .error e => MStep.failed e
                        | .ok v => deliver v (Ctx.mk (some (n, s)) done krest :: cs))
                   | .ok (some kids) =>
                       MStep.next (Ctx.mk (some (kn, ks2)) [] kids.reverse ::
                         Ctx.mk (some (n, s)) done krest :: cs)) with
                | .failed e => Except.error e
                | .finished v => Except.ok v
                | .next st2 => runRes C st2) = _
              rw [hmc, hle]
              show runRes C (Ctx.mk (some (n, s)) (done ++ [v]) krest :: cs) = _
              have hless : stMeasure (Ctx.mk (some (n, s)) (done ++ [v]) krest :: cs) < M := by
                have h1 : stMeasure (Ctx.mk (some (n, s)) (done ++ [v]) krest :: cs) =
                    1 + wTodo krest + stMeasure cs := by
                  rw [stMeasure_cons]; rfl
                omega
              rw [ih _ hless C n s (done ++ [v]) krest cs le_rfl]
              simp only [exMapM, hsub]
              rcases hrest : exMapM (fun p => subEval C p.2 p.1) krest with e | vs
              · simp [hrest]
              · simp [hrest]
        | some kids =>
            -- branch child: its own frame is pushed and, by induction,
            -- evaluates exactly like an independent sub-run
            have hkb := match_children_bound hmc
            have hsub : subEval C ks2 kn =
                (match exMapM (fun p => subEval C p.2 p.1) kids.reverse with
                 | .error e => .error e
                 | .ok ws =>
                     match yaschema.resolve ks2 (.vlist ws) with
                     | .error e => .error e
                     | .ok w => .ok w) := by
              rw [subEval, initState, runRes_eq]
              show (match
                  (match yaschema.match_children ks2 kn with
                   | .error e => MStep.failed e
                   | .ok none =>
                       (match leafEval C ks2 kn with
                        | .error e => MStep.failed e
                        | .ok v => deliver v (Ctx.mk none [] [] :: ([] : List Ctx)))
                   | .ok (some kids) =>
                       MStep.next (Ctx.mk (some (kn, ks2)) [] kids.reverse ::
                         Ctx.mk none [] [] :: ([] : List Ctx))) with
                | .failed e => Except.error e
                | .finished v => Except.ok v
                | .next st2 => runRes C st2) = _
              rw [hmc]
              show runRes C (Ctx.mk (some (kn, ks2)) [] kids.reverse ::
                  Ctx.mk none [] [] :: ([] : List Ctx)) = _
              have hless : stMeasure (Ctx.mk (some (kn, ks2)) [] kids.reverse ::
                  Ctx.mk none [] [] :: ([] : List Ctx)) < M := by
                have hA : ctxMeasure (Ctx.mk (some (kn, ks2)) [] kids.reverse) =
                    1 + wTodo kids.reverse := rfl
                have hB : ctxMeasure (Ctx.mk (none : Option (Node × yaschema)) [] []) = 1 := rfl
                have hN : stMeasure ([] : List Ctx) = 0 := rfl
                rw [stMeasure_cons, stMeasure_cons, hA, hB, hN, wTodo_reverse]
                omega
              rw [ih _ hless C kn ks2 [] kids.reverse
                    (Ctx.mk none [] [] :: ([] : List Ctx)) le_rfl]
              rcases hws : exMapM (fun p => subEval C p.2 p.1) kids.reverse with e | ws
              · rfl
              · simp only [List.nil_append]
                rcases hr2 : yaschema.resolve ks2 (.vlist ws) with e | w
                · rfl
                · rfl
            rw [runRes_eq]
            show (match
                (match yaschema.match_children ks2 kn with
                 | .error e => MStep.failed e
                 | .ok none =>
                     (match leafEval C ks2 kn with
                      | .error e => MStep.failed e
                      | .ok v => deliver v (Ctx.mk (some (n, s)) done krest :: cs))
                 | .ok (some kids) =>
                     MStep.next (Ctx.mk (some (kn, ks2)) [] kids.reverse ::
                       Ctx.mk (some (n, s)) done krest :: cs)) with
              | .failed e => Except.error e
              | .finished v => Except.ok v
              | .next st2 => runRes C st2) = _
            rw [hmc]
            show runRes C (Ctx.mk (some (kn, ks2)) [] kids.reverse ::
                Ctx.mk (some (n, s)) done krest :: cs) = _
            have hless : stMeasure (Ctx.mk (some (kn, ks2)) [] kids.reverse ::
                Ctx.mk (some (n, s)) done krest :: cs) < M := by
              have hA : ctxMeasure (Ctx.mk (some (kn, ks2)) [] kids.reverse) =
                  1 + wTodo kids.reverse := rfl
              have hB : ctxMeasure (Ctx.mk (some (n, s)) done krest) = 1 + wTodo krest := rfl
              rw [stMeasure_cons, stMeasure_cons, hA, hB, wTodo_reverse]
              omega
            rw [ih _ hless C kn ks2 [] kids.reverse
                  (Ctx.mk (some (n, s)) done krest :: cs) le_rfl]
            simp only [exMapM, hsub]
            rcases hws : exMapM (fun p => subEval C p.2 p.1) kids.reverse with e | ws
            · rw [hws]
            · rw [hws]
              simp only [List.nil_append]
              rcases hr2 : yaschema.resolve ks2 (.vlist ws) with e | w
              · rfl
              · show deliverRun C w (Ctx.mk (some (n, s)) done krest :: cs) = _
                rw [deliverRun]
                show runRes C (Ctx.mk (some (n, s)) (done ++ [w]) krest :: cs) = _
                have hless2 : stMeasure (Ctx.mk (some (n, s)) (done ++ [w]) krest :: cs) < M := by
                  have h1 : stMeasure (Ctx.mk (some (n, s)) (done ++ [w]) krest :: cs) =
                      1 + wTodo krest + stMeasure cs := by
                    rw [stMeasure_cons]; rfl
                  omega
                rw [ih _ hless2 C n s (done ++ [w]) krest cs le_rfl]
                rcases hrest : exMapM (fun p => subEval C p.2 p.1) krest with e | vs
                · simp [hrest]
                · simp [hrest]

/-- One-subtree evaluation, described recursively: expand the frame via
`match_children`; a leaf is constructed and resolved in place; a branch
evaluates each yielded child as its own sub-run, in stack order (the
reverse of the yielded list, i.e. document order), and resolves the
collected values. -/
theorem subEval_run (C : SafeConstructor) (s : yaschema) (n : Node) :
    subEval C s n =
      (match yaschema.match_children s n with
       | .error e => .error e
       | .ok none => leafEval C s n
       | .ok (some kids) =>
           match exMapM (fun p => subEval C p.2 p.1) kids.reverse with
           | .error e => .error e
           | .ok vs =>
               match yaschema.resolve s (.vlist vs) with
               | .error e => .error e
               | .ok v => .ok v) := by
  conv_lhs => rw [subEval, initState, runRes_eq]
  show (match
      (match yaschema.match_children s n with
       | .error e => MStep.failed e
       | .ok none =>
           (match leafEval C s n with
            | .error e => MStep.failed e
            | .ok v => deliver v (Ctx.mk none [] [] :: ([] : List Ctx)))
       | .ok (some kids) =>
           MStep.next (Ctx.mk (some (n, s)) [] kids.reverse ::
             Ctx.mk none [] [] :: ([] : List Ctx))) with
    | .failed e => Except.error e
    | .finished v => Except.ok v
    | .next st2 => runRes C st2) = _
  rcases hmc : yaschema.match_children s n with e | kids?
  · rfl
  · cases kids? with
    | none =>
        rcases hle : leafEval C s n with e | v
        · rfl
        · rfl
    | some kids =>
        show runRes C (Ctx.mk (some (n, s)) [] kids.reverse ::
            Ctx.mk none [] [] :: ([] : List Ctx)) = _
        rw [runRes_decompose (stMeasure (Ctx.mk (some (n, s)) [] kids.reverse ::
              Ctx.mk none [] [] :: ([] : List Ctx))) C n s [] kids.reverse
              (Ctx.mk none [] [] :: ([] : List Ctx)) le_rfl]
        rcases hws : exMapM (fun p => subEval C p.2 p.1) kids.reverse with e | ws
        · rfl
        · simp only [List.nil_append]
          rcases hr2 : yaschema.resolve s (.vlist ws) with e | w
          · rfl
          · rfl

/-- `load_and_map` is the root match followed by the machine run of the
matched root frame. -/
theorem load_and_map_eq (C : SafeConstructor) (sch : yaschema) (n : Node) :
    load_and_map C sch n =
      (match yaschema.matches sch n with
       | .error e => .error e
       | .ok ms => subEval C ms n) := by
  rw [load_and_map]
  rcases hm : yaschema.matches sch n with e | ms
  · rfl
  · rfl


/-- C6: every builder call (`case`, `entry`, `zero_or_one`,
`exactly_one`, `zero_or_more`, `one_or_more`, and copy-based
modification generally) returns a new schema value whose untouched
fields equal the receiver's fields and whose modified field is the
receiver's field extended by exactly the registered element; in this
pure-value embedding of the frozen dataclasses the receiver itself is
left unchanged by construction, mirroring `yacopyable.copy`, which
writes only the fresh copy. -/
theorem claim_C6_builders_copy_not_mutate :
    (∀ (entries : List yaschema) (e : yaschema),
        yaoneof_case (.yaoneof entries) e = .yaoneof (entries ++ [e])) ∧
    (∀ (e : yaentry) (p : Pattern) (s : yaschema) (t : PairFn),
        yaentry_case e p s t = (e.required, e.repeated, e.keys ++ [(p, s, t)])) ∧
    (∀ (tag : Pattern) (ty : Option TypeFn) (entries : List yaentry) (e : yaentry),
        yamap_entry (.yamap tag ty entries) e = .yamap tag ty (entries ++ [e])) ∧
    (∀ (tag : Pattern) (ty : Option TypeFn) (entries : List yaentry)
        (regex : Pattern) (s : yaschema) (t : PairFn) (rep req : Bool),
        yamap_case (.yamap tag ty entries) regex s t rep req =
          .yamap tag ty (entries ++ [(req, rep, [(regex, s, t)])])) ∧
    (∀ (tag : Pattern) (ty : Option TypeFn) (entries : List yaentry)
        (regex : Pattern) (s : yaschema) (t : PairFn),
        yamap_zero_or_one (.yamap tag ty entries) regex s t =
          .yamap tag ty (entries ++ [(false, false, [(regex, s, t)])])) ∧
    (∀ (tag : Pattern) (ty : Option TypeFn) (entries : List yaentry)
        (regex : Pattern) (s : yaschema) (t : PairFn),
        yamap_exactly_one (.yamap tag ty entries) regex s t =
          .yamap tag ty (entries ++ [(true, false, [(regex, s, t)])])) ∧
    (∀ (tag : Pattern) (ty : Option TypeFn) (entries : List yaentry)
        (regex : Pattern) (s : yaschema) (t : PairFn),
        yamap_zero_or_more (.yamap tag ty entries) regex s t =
          .yamap tag ty (entries ++ [(false, true, [(regex, s, t)])])) ∧
    (∀ (tag : Pattern) (ty : Option TypeFn) (entries : List yaentry)
        (regex : Pattern) (s : yaschema) (t : PairFn),
        yamap_one_or_more (.yamap tag ty entries) regex s t =
          .yamap tag ty (entries ++ [(true, true, [(regex, s, t)])])) ∧
    (∀ (tag : Pattern) (ty : Option TypeFn) (sch : yaschema) (e : yaschema),
        yaseq_case (.yaseq tag ty sch) e = .yaseq tag ty (yaoneof_case sch e)) := by
  refine ⟨?_, ?_, ?_, ?_, ?_, ?_, ?_, ?_, ?_⟩ <;> intros <;> rfl

/-- C8: constructing a mapping schema with both `squash` and `unpack`,
or a mapping or sequence schema with a structural transform but
`type=None`, raises `SchemaError` in `__init__` — before any document
can be loaded, since no schema value is produced at all. -/
theorem claim_C8_schema_definition_errors :
    (∀ (tag : Option Pattern) (ty : Option (Option TypeFn)),
        yamap_mk tag ty true true =
          .error (.schemaError "squash and unpack cannot be used at the same time")) ∧
    (∀ tag : Option Pattern,
        yamap_mk tag (some none) true false =
          .error (.schemaError "squash and unpack require a type")) ∧
    (∀ tag : Option Pattern,
        yamap_mk tag (some none) false true =
          .error (.schemaError "squash and unpack require a type")) ∧
    (∀ tag : Option Pattern,
        yaseq_mk tag (some none) true = .error (.schemaError "unpack requires a type")) := by
  refine ⟨?_, ?_, ?_, ?_⟩ <;> intros <;> rfl

/-- C10: the default scalar construction hook (`as_scalar`, the
`construct` default of `yascalar`) dispatches on the node's tag: a
null-tagged node constructs to `None`, bool-, float- and int-tagged
nodes construct via the corresponding `SafeConstructor` typed
constructors, and every other tag goes to `construct_scalar`, which
(per the external contract, `specSafeConstructor`) returns the raw
scalar string. -/
theorem claim_C10_as_scalar_dispatch :
    ∀ (c : SafeConstructor) (n : Node),
      (n.tag = "tag:yaml.org,2002:null" → as_scalar c n = .vnull) ∧
      (n.tag = "tag:yaml.org,2002:bool" → as_scalar c n = c.construct_yaml_bool n) ∧
      (n.tag = "tag:yaml.org,2002:float" → as_scalar c n = c.construct_yaml_float n) ∧
      (n.tag = "tag:yaml.org,2002:int" → as_scalar c n = c.construct_yaml_int n) ∧
      (n.tag ≠ "tag:yaml.org,2002:null" → n.tag ≠ "tag:yaml.org,2002:bool" →
        n.tag ≠ "tag:yaml.org,2002:float" → n.tag ≠ "tag:yaml.org,2002:int" →
        as_scalar c n = c.construct_scalar n) ∧
      (yaschema.construct_leaf c yascalarDefault n = .ok (as_scalar c n)) ∧
      (n.tag ≠ "tag:yaml.org,2002:null" → n.tag ≠ "tag:yaml.org,2002:bool" →
        n.tag ≠ "tag:yaml.org,2002:float" → n.tag ≠ "tag:yaml.org,2002:int" →
        as_scalar specSafeConstructor n = .vstr n.scalarValue) := by
  intro c n
  refine ⟨?_, ?_, ?_, ?_, ?_, rfl, ?_⟩
  · intro h; simp [as_scalar, h]
  · intro h; simp [as_scalar, h]
  · intro h; simp [as_scalar, h]
  · intro h; simp [as_scalar, h]
  · intro h1 h2 h3 h4; simp [as_scalar, h1, h2, h3, h4]
  · intro h1 h2 h3 h4; simp [as_scalar, h1, h2, h3, h4, specSafeConstructor]

/-- Concrete witness for the dispatch theorem: a null scalar and a
plain string scalar. -/
theorem claim_C10_witness :
    as_scalar specSafeConstructor (.scalar "tag:yaml.org,2002:null" "~") = .vnull ∧
    as_scalar specSafeConstructor (.scalar "tag:yaml.org,2002:str" "hi") = .vstr "hi" :=
  ⟨(claim_C10_as_scalar_dispatch specSafeConstructor
      (.scalar "tag:yaml.org,2002:null" "~")).1 (by decide),
   by
    have h := (claim_C10_as_scalar_dispatch specSafeConstructor
      (.scalar "tag:yaml.org,2002:str" "hi")).2.2.2.2.2.2
      (by decide) (by decide) (by decide) (by decide)
    simpa using h⟩

/-- First-success characterisation of the alternation loop: a success
is the match of some entry all of whose predecessors failed with the
no-match probe signal. -/
theorem matchesOneof_ok_first {l : List yaschema} {n : Node} {m : yaschema} :
    yaschema.matchesOneof l n = .ok m ↔
      ∃ pre s post, l = pre ++ s :: post ∧ yaschema.matches s n = .ok m ∧
        ∀ s2 ∈ pre, ∃ n2, yaschema.matches s2 n = .error (.noMatchingType n2) := by
  induction l with
  | nil =>
      constructor
      · intro h; simp [yaschema.matchesOneof] at h
      · rintro ⟨pre, s, post, hl, _, _⟩
        exact absurd hl (by simp)
  | cons a rest ih =>
      constructor
      · intro h
        rw [yaschema.matchesOneof] at h
        rcases he : yaschema.matches a n with e2 | r
        · rw [he] at h
          rcases matches_error_shape a n e2 he with ⟨n2, rfl⟩
          rcases ih.mp h with ⟨pre, s, post, hl, hs, hpre⟩
          refine ⟨a :: pre, s, post, by simp [hl], hs, ?_⟩
          intro s2 hs2
          rcases List.mem_cons.mp hs2 with rfl | hs3
          · exact ⟨n2, he⟩
          · exact hpre s2 hs3
        · rw [he] at h
          simp at h
          exact ⟨[], a, rest, rfl, by rw [he, h], by simp⟩
      · rintro ⟨pre, s, post, hl, hs, hpre⟩
        cases pre with
        | nil =>
            simp at hl
            rw [← hl.1] at hs
            rw [yaschema.matchesOneof, hs]
        | cons p pre2 =>
            have hpl : a = p ∧ rest = pre2 ++ s :: post := by
              constructor
              · have := congrArg (fun x => x.head?) hl
                simpa using this
              · have := congrArg (fun x => x.tail) hl
                simpa using this
            rcases hpl with ⟨rfl, hrest⟩
            rcases hpre a (List.mem_cons_self _ _) with ⟨n2, hfail⟩
            rw [yaschema.matchesOneof, hfail]
            exact ih.mpr ⟨pre2, s, post, hrest,
              hs, fun s2 hs2 => hpre s2 (List.mem_cons_of_mem _ hs2)⟩

/-- Every entry of a failing alternation failed with the no-match
signal. -/
theorem matchesOneof_error_all {l : List yaschema} {n : Node} {e : Err}
    (h : yaschema.matchesOneof l n = .error e) :
    ∀ s ∈ l, ∃ n2, yaschema.matches s n = .error (.noMatchingType n2) := by
  induction l with
  | nil => intro s hs; cases hs
  | cons a rest ih =>
      rw [yaschema.matchesOneof] at h
      intro s hs
      rcases he : yaschema.matches a n with e2 | r
      · rw [he] at h
        rcases matches_error_shape a n e2 he with ⟨n2, rfl⟩
        rcases List.mem_cons.mp hs with rfl | hs2
        · exact ⟨n2, he⟩
        · exact ih h s hs2
      · rw [he] at h
        simp at h

/-- Conversely, when every entry fails the alternation raises
`NoMatchingType` at the node it was given. -/
theorem matchesOneof_all_error {l : List yaschema} {n : Node}
    (h : ∀ s ∈ l, ∃ n2, yaschema.matches s n = .error (.noMatchingType n2)) :
    yaschema.matchesOneof l n = .error (.noMatchingType n) := by
  induction l with
  | nil => rfl
  | cons a rest ih =>
      rcases h a (List.mem_cons_self _ _) with ⟨n2, hfail⟩
      rw [yaschema.matchesOneof, hfail]
      exact ih (fun s hs => h s (List.mem_cons_of_mem _ hs))

/-- C3: `yaoneof.matches` tries its candidates strictly in registration
order and returns the result of the first candidate that succeeds; a
candidate's no-match signal is caught internally; the error that
escapes is always `NoMatchingType` at the probed node, and it escapes
exactly when no candidate at all matches. -/
theorem claim_C3_alternation_first_match (es : List yaschema) (n : Node) :
    (∀ m : yaschema,
      yaschema.matches (.yaoneof es) n = .ok m ↔
        ∃ pre s post, es = pre ++ s :: post ∧ yaschema.matches s n = .ok m ∧
          ∀ s2 ∈ pre, ∃ n2, yaschema.matches s2 n = .error (.noMatchingType n2)) ∧
    (yaschema.matches (.yaoneof es) n = .error (.noMatchingType n) ↔
      ∀ s ∈ es, ∃ n2, yaschema.matches s n = .error (.noMatchingType n2)) ∧
    (∀ e : Err, yaschema.matches (.yaoneof es) n = .error e → e = .noMatchingType n) := by
  have hdef : yaschema.matches (.yaoneof es) n = yaschema.matchesOneof es n := rfl
  refine ⟨?_, ⟨?_, ?_⟩, ?_⟩
  · intro m
    rw [hdef]
    exact matchesOneof_ok_first
  · intro h
    rw [hdef] at h
    exact matchesOneof_error_all h
  · intro h
    rw [hdef]
    exact matchesOneof_all_error h
  · intro e h
    rw [hdef] at h
    rcases matchesOneof_error_cases h with rfl | ⟨s2, _, hs2, hne⟩
    · rfl
    · rcases matches_error_shape s2 n e hs2 with ⟨n2, rfl⟩
      exact absurd rfl (hne n2)

/-- Concrete witness for the alternation characterisation: the second
candidate of a two-candidate alternation wins when the first fails. -/
theorem claim_C3_witness :
    yaschema.matches (.yaoneof [.yascalar mapTagPattern none none as_scalar, yastrDefault])
      (.scalar "tag:yaml.org,2002:str" "x") = .ok yastrDefault ∧
    yaschema.matches (.yaoneof [yastrDefault]) (.seq "tag:yaml.org,2002:seq" []) =
      .error (.noMatchingType (.seq "tag:yaml.org,2002:seq" [])) := by
  constructor
  · exact (claim_C3_alternation_first_match
      [.yascalar mapTagPattern none none as_scalar, yastrDefault]
      (.scalar "tag:yaml.org,2002:str" "x") |>.1 yastrDefault).mpr
      ⟨[.yascalar mapTagPattern none none as_scalar], yastrDefault, [], rfl, by rfl,
        by
          intro s2 hs2
          simp at hs2
          exact ⟨.scalar "tag:yaml.org,2002:str" "x", by rw [hs2]; rfl⟩⟩
  · exact (claim_C3_alternation_first_match [yastrDefault]
      (.seq "tag:yaml.org,2002:seq" []) |>.2.1).mpr
      (by
        intro s hs
        simp at hs
        exact ⟨.seq "tag:yaml.org,2002:seq" [], by rw [hs]; rfl⟩)

theorem exMapM_ok_mem {A B : Type} {f : A → Except Err B} :
    ∀ {l : List A} {ys : List B}, exMapM f l = .ok ys → ∀ a ∈ l, ∃ b, f a = .ok b := by
  intro l
  induction l with
  | nil => intro ys h a ha; cases ha
  | cons x rest ih =>
      intro ys h a ha
      rw [exMapM] at h
      rcases hx : f x with e | b
      · rw [hx] at h; simp at h
      · rw [hx] at h
        rcases hr : exMapM f rest with e | bs
        · rw [hr] at h; simp at h
        · rcases List.mem_cons.mp ha with rfl | ha2
          · exact ⟨b, hx⟩
          · exact ih hr a ha2

/-- The error of an eagerly drained generator is the error of the first
failing element; all elements before it were produced successfully. -/
theorem exMapM_error_first {A B : Type} {f : A → Except Err B} :
    ∀ {l : List A} {e : Err}, exMapM f l = .error e ↔
      ∃ pre a post, l = pre ++ a :: post ∧ f a = .error e ∧
        ∀ b ∈ pre, ∃ y, f b = .ok y := by
  intro l
  induction l with
  | nil =>
      intro e
      constructor
      · intro h; simp [exMapM] at h
      · rintro ⟨pre, a, post, hl, _, _⟩
        exact absurd hl (by simp)
  | cons x rest ih =>
      intro e
      constructor
      · intro h
        rw [exMapM] at h
        rcases hx : f x with e2 | b
        · rw [hx] at h
          simp at h
          exact ⟨[], x, rest, rfl, by rw [hx, h], by simp⟩
        · rw [hx] at h
          rcases hr : exMapM f rest with e2 | bs
          · rw [hr] at h
            simp at h
            subst h
            rcases ih.mp hr with ⟨pre, a, post, hl, ha, hpre⟩
            refine ⟨x :: pre, a, post, by simp [hl], ha, ?_⟩
            intro pb hpb
            rcases List.mem_cons.mp hpb with rfl | hb2
            · exact ⟨b, hx⟩
            · exact hpre pb hb2
          · rw [hr] at h; simp at h
      · rintro ⟨pre, a, post, hl, ha, hpre⟩
        cases pre with
        | nil =>
            simp at hl
            rw [← hl.1] at ha
            rw [exMapM, ha]
        | cons p pre2 =>
            have hpl : x = p ∧ rest = pre2 ++ a :: post := by
              constructor
              · have := congrArg (fun y => y.head?) hl
                simpa using this
              · have := congrArg (fun y => y.tail) hl
                simpa using this
            rcases hpl with ⟨rfl, hrest⟩
            rcases hpre x (List.mem_cons_self _ _) with ⟨y, hy⟩
            rw [exMapM, hy]
            rw [ih.mpr ⟨pre2, a, post, hrest, ha,
              fun b hb => hpre b (List.mem_cons_of_mem _ hb)⟩]

theorem zipFirstFrom_none {A B : Type} {pred : A → Option B} :
    ∀ (l : List A) (i : Nat), (∀ a ∈ l, pred a = none) →
      zipFirstFrom pred i l = none := by
  intro l
  induction l with
  | nil => intro i h; rfl
  | cons a rest ih =>
      intro i h
      rw [zipFirstFrom, h a (List.mem_cons_self _ _)]
      exact ih (i + 1) (fun b hb => h b (List.mem_cons_of_mem _ hb))

theorem zipFirstFrom_first {A B : Type} {pred : A → Option B} {a : A} {r : B} :
    ∀ (pre : List A) (post : List A) (i : Nat), (∀ b ∈ pre, pred b = none) →
      pred a = some r →
      zipFirstFrom pred i (pre ++ a :: post) = some (i + pre.length, a, r) := by
  intro pre
  induction pre with
  | nil =>
      intro post i _ ha
      rw [List.nil_append, zipFirstFrom, ha]
      simp
  | cons p pre2 ih =>
      intro post i hpre ha
      rw [List.cons_append, zipFirstFrom, hpre p (List.mem_cons_self _ _)]
      rw [ih post (i + 1) (fun b hb => hpre b (List.mem_cons_of_mem _ hb)) ha]
      simp
      omega

/-- Per-case characterisation of a failing `yaentry.match_item`: every
case either fails the key pattern or fails the value-schema match. -/
theorem matchItemKeys_none_iff {key : String} {value : Node} :
    ∀ {cs : List (Pattern × yaschema × PairFn)},
      matchItemKeys cs key value = none ↔
        ∀ c ∈ cs, c.1.fullmatch key = false ∨
          ∃ n2, yaschema.matches c.2.1 value = .error (.noMatchingType n2) := by
  intro cs
  induction cs with
  | nil => simp [matchItemKeys]
  | cons c rest ih =>
      rcases c with ⟨regex, schema, t⟩
      constructor
      · intro h c2 hc2
        rw [matchItemKeys] at h
        by_cases hre : regex.fullmatch key
        · simp [hre] at h
          rcases hm : yaschema.matches schema value with e | m
          · rw [hm] at h
            rcases List.mem_cons.mp hc2 with rfl | hc3
            · rcases matches_error_shape schema value e hm with ⟨n2, rfl⟩
              exact Or.inr ⟨n2, hm⟩
            · exact ih.mp h c2 hc3
          · rw [hm] at h; simp at h
        · simp [hre] at h
          rcases List.mem_cons.mp hc2 with rfl | hc3
          · exact Or.inl (by simpa using hre)
          · exact ih.mp h c2 hc3
      · intro h
        rw [matchItemKeys]
        by_cases hre : regex.fullmatch key
        · simp [hre]
          rcases h (regex, schema, t) (List.mem_cons_self _ _) with h2 | ⟨n2, h2⟩
          · simp at h2
            rw [h2] at hre
            cases hre
          · rw [h2]
            exact ih.mpr (fun c2 hc2 => h c2 (List.mem_cons_of_mem _ hc2))
        · simp [hre]
          exact ih.mpr (fun c2 hc2 => h c2 (List.mem_cons_of_mem _ hc2))

/-- C5: per-key behaviour of `yamap.match_children`.  A key node whose
tag is not the plain-string tag raises the structural error naming that
key node; a string key that no entry rule matches (by both key-pattern
fullmatch and value-schema match) raises `NoMatchingType` at the key
node; entry rules are scanned in declaration order and the first rule
whose `match_item` succeeds is the one recorded, producing the
entry-expansion child `(key, value-schema match, pair constructor)`
around the value node; and a raising scan aborts the whole
`match_children` with that error. -/
theorem claim_C5_mapping_key_scanning :
    (∀ (entries : List yaentry) (k v : Node), k.tag ≠ "tag:yaml.org,2002:str" →
        scanPair entries (k, v) =
          .error (.mappingError "Only plain strings supported as mapping keys" k)) ∧
    (∀ (entries : List yaentry) (k v : Node), k.tag = "tag:yaml.org,2002:str" →
        (∀ e ∈ entries, match_item e k.scalarValue v = none) →
        scanPair entries (k, v) = .error (.noMatchingType k)) ∧
    (∀ (e : yaentry) (key : String) (v : Node),
        match_item e key v = none ↔
          ∀ c ∈ e.keys, c.1.fullmatch key = false ∨
            ∃ n2, yaschema.matches c.2.1 v = .error (.noMatchingType n2)) ∧
    (∀ (pre : List yaentry) (e : yaentry) (post : List yaentry) (k v : Node)
        (r : String × yaschema × PairFn), k.tag = "tag:yaml.org,2002:str" →
        (∀ e2 ∈ pre, match_item e2 k.scalarValue v = none) →
        match_item e k.scalarValue v = some r →
        scanPair (pre ++ e :: post) (k, v) =
          .ok (pre.length, (v, .yaexpand r.1 r.2.1 r.2.2))) ∧
    (∀ (tag : Pattern) (ty : Option TypeFn) (entries : List yaentry) (t : String)
        (pairs : List (Node × Node)) (e : Err),
        exMapM (scanPair entries) pairs.reverse = .error e →
        yaschema.match_children (.yamap tag ty entries) (.map t pairs) = .error e) := by
  refine ⟨?_, ?_, ?_, ?_, ?_⟩
  · intro entries k v h
    simp [scanPair, h]
  · intro entries k v h hnone
    rw [scanPair]
    simp only [h]
    rw [if_neg (by simp)]
    rw [zip_first, zipFirstFrom_none entries 0 hnone]
  · intro e key v
    exact matchItemKeys_none_iff
  · intro pre e post k v r h hpre hitem
    rw [scanPair]
    simp only [h]
    rw [if_neg (by simp)]
    rw [zip_first, zipFirstFrom_first pre post 0 hpre hitem]
    rcases r with ⟨rk, rm, rt⟩
    simp
  · intro tag ty entries t pairs e h
    simp only [yaschema.match_children]
    rw [h]

/-- Concrete witness for the mapping key-scanning theorem: an
int-tagged key is rejected as a key, an unknown string key raises
`NoMatchingType`, and a `command` key is recorded against the first
(only) entry with the entry-expansion child. -/
theorem claim_C5_witness :
    scanPair [(true, false, [(cmdPattern, yastrDefault, pair)])]
        (.scalar "tag:yaml.org,2002:int" "1", strNode "x") =
      .error (.mappingError "Only plain strings supported as mapping keys"
        (.scalar "tag:yaml.org,2002:int" "1")) ∧
    scanPair [(true, false, [(cmdPattern, yastrDefault, pair)])]
        (strNode "other", strNode "x") =
      .error (.noMatchingType (strNode "other")) ∧
    scanPair [(true, false, [(cmdPattern, yastrDefault, pair)])]
        (strNode "command", strNode "x") =
      .ok (0, (strNode "x", .yaexpand "command" yastrDefault pair)) := by
  refine ⟨?_, ?_, ?_⟩
  · exact claim_C5_mapping_key_scanning.1 _ _ _ (by decide)
  · refine claim_C5_mapping_key_scanning.2.1 _ _ _ (by decide) ?_
    intro e he
    simp only [List.mem_singleton] at he
    subst he
    rfl
  · have h := claim_C5_mapping_key_scanning.2.2.2.1 []
      (true, false, [(cmdPattern, yastrDefault, pair)]) [] (strNode "command") (strNode "x")
      ("command", yastrDefault, pair) (by decide) (by simp) (by rfl)
    simpa using h

/-- Splitting the final check loop of `yamap.match_children` at the
first entry of interest: once all earlier entries pass their checks,
the loop continues at that entry. -/
theorem checkEntriesAux_split {node : Node} {entries : List yaentry}
    {hits : List (Nat × (Node × yaschema))} :
    ∀ (pre : List yaentry) (e : yaentry) (post : List yaentry),
      (∀ e2 ∈ pre, checkOne node entries hits e2 = .ok ()) →
      checkEntriesAux node entries hits (pre ++ e :: post) =
        (match checkOne node entries hits e with
         | .error err => .error err
         | .ok _ => checkEntriesAux node entries hits post) := by
  intro pre
  induction pre with
  | nil =>
      intro e post _
      rw [List.nil_append, checkEntriesAux]
  | cons p pre2 ih =>
      intro e post hpre
      rw [List.cons_append, checkEntriesAux]
      have h0 : checkOne node entries hits p = .ok () :=
        hpre p (List.mem_cons_self _ _)
      rw [h0]
      exact ih e post (fun e2 he2 => hpre e2 (List.mem_cons_of_mem _ he2))

/-- When every entry passes its checks, the final loop succeeds. -/
theorem checkEntriesAux_all_ok {node : Node} {entries : List yaentry}
    {hits : List (Nat × (Node × yaschema))} :
    ∀ (es : List yaentry),
      (∀ e ∈ es, checkOne node entries hits e = .ok ()) →
      checkEntriesAux node entries hits es = .ok () := by
  intro es
  induction es with
  | nil => intro _; rfl
  | cons e rest ih =>
      intro h
      rw [checkEntriesAux, h e (List.mem_cons_self _ _)]
      exact ih (fun e2 he2 => h e2 (List.mem_cons_of_mem _ he2))

/-- After a successful scan, `yamap.match_children` is exactly the
final cardinality check loop followed by the collected children. -/
theorem yamap_mc_check {tag : Pattern} {ty : Option TypeFn} {entries : List yaentry}
    {t : String} {pairs : List (Node × Node)} {hits : List (Nat × (Node × yaschema))}
    (hscan : exMapM (scanPair entries) pairs.reverse = .ok hits) :
    yaschema.match_children (.yamap tag ty entries) (.map t pairs) =
      (match checkEntries (.map t pairs) entries hits with
       | .error e => .error e
       | .ok _ => .ok (some (hits.map (fun h => h.2)))) := by
  simp only [yaschema.match_children]
  rw [hscan]

/-- A mapping node whose tag matches loads through its own frame. -/
theorem load_yamap_subEval {C : SafeConstructor} {tag : Pattern} {ty : Option TypeFn}
    {entries : List yaentry} {t : String} {pairs : List (Node × Node)}
    (htag : tag.fullmatch t = true) :
    load_and_map C (.yamap tag ty entries) (.map t pairs) =
      subEval C (.yamap tag ty entries) (.map t pairs) := by
  rw [load_and_map_eq]
  have hm : yaschema.matches (.yamap tag ty entries) (.map t pairs) =
      .ok (.yamap tag ty entries) := by
    simp only [yaschema.matches]
    rw [show (Node.map t pairs).tag = t from rfl, htag]
    simp
  rw [hm]

/-- An erroring `match_children` aborts the frame's whole sub-run. -/
theorem subEval_mc_error {C : SafeConstructor} {s : yaschema} {n : Node} {e : Err}
    (h : yaschema.match_children s n = .error e) : subEval C s n = .error e := by
  rw [subEval_run, h]

/-- C2: cardinality enforcement of `yamap.match_children`, lifted to
`load`.  After a successful scan of every (key, value) pair of the
mapping (each pair recorded against an entry rule, and its occurrence
counted under the rule's `yaentry` dataclass value), a `required`
entry rule whose value-keyed count is zero raises the
required-key-missing `MappingError`, and a non-repeatable rule whose
value-keyed count is two or more raises the at-most-one-allowed
`MappingError` (the rule checks run in declaration order, required
before repeat within a rule, so the hypotheses state that all earlier
entries pass).  When every entry passes both checks, `match_children`
returns the full child list — in particular a repeatable required
rule with two or more occurrences succeeds.  The checks consume the
occurrence counts of the complete scan, i.e. they run strictly after
every pair has been scanned and its child produced. -/
theorem claim_C2_cardinality_enforcement :
    ∀ (C : SafeConstructor) (tag : Pattern) (ty : Option TypeFn) (entries : List yaentry)
      (t : String) (pairs : List (Node × Node)) (hits : List (Nat × (Node × yaschema))),
      tag.fullmatch t = true →
      exMapM (scanPair entries) pairs.reverse = .ok hits →
      ((∀ (pre : List yaentry) (e : yaentry) (post : List yaentry),
          entries = pre ++ e :: post →
          (∀ e2 ∈ pre, checkOne (.map t pairs) entries hits e2 = .ok ()) →
          e.required = true → countFor entries hits e = 0 →
          load_and_map C (.yamap tag ty entries) (.map t pairs) =
            .error (.mappingError ("Required key " ++ keys_repr e ++ " missing")
              (.map t pairs))) ∧
       (∀ (pre : List yaentry) (e : yaentry) (post : List yaentry),
          entries = pre ++ e :: post →
          (∀ e2 ∈ pre, checkOne (.map t pairs) entries hits e2 = .ok ()) →
          e.repeated = false → 1 < countFor entries hits e →
          load_and_map C (.yamap tag ty entries) (.map t pairs) =
            .error (.mappingError ("Maximum one of " ++ keys_repr e ++ " allowed")
              (.map t pairs))) ∧
       ((∀ e ∈ entries, checkOne (.map t pairs) entries hits e = .ok ()) →
          yaschema.match_children (.yamap tag ty entries) (.map t pairs) =
            .ok (some (hits.map (fun h => h.2))))) := by
  intro C tag ty entries t pairs hits htag hscan
  refine ⟨?_, ?_, ?_⟩
  · rintro pre e post rfl hpre hreq hcnt
    rw [load_yamap_subEval htag]
    apply subEval_mc_error
    rw [yamap_mc_check hscan]
    rw [checkEntries, checkEntriesAux_split pre e post hpre]
    have hco : checkOne (.map t pairs) (pre ++ e :: post) hits e =
        .error (.mappingError ("Required key " ++ keys_repr e ++ " missing")
          (.map t pairs)) := by
      simp [checkOne, hreq, hcnt]
    rw [hco]
  · rintro pre e post rfl hpre hrep hcnt
    rw [load_yamap_subEval htag]
    apply subEval_mc_error
    rw [yamap_mc_check hscan]
    rw [checkEntries, checkEntriesAux_split pre e post hpre]
    have hco : checkOne (.map t pairs) (pre ++ e :: post) hits e =
        .error (.mappingError ("Maximum one of " ++ keys_repr e ++ " allowed")
          (.map t pairs)) := by
      have h1 : (countFor (pre ++ e :: post) hits e == 0) = false := by
        simp
        omega
      simp [checkOne, h1, hrep, hcnt]
    rw [hco]
  · intro hall
    rw [yamap_mc_check hscan]
    rw [checkEntries, checkEntriesAux_all_ok entries hall]

/-- Concrete witness for the cardinality theorem: a mapping requiring
`command` raises required-key-missing on the empty mapping node,
raises at-most-one-allowed when `command` appears twice, and a
repeatable required rule accepts two occurrences. -/
theorem claim_C2_witness :
    load_and_map specSafeConstructor cmdMapSchema (.map "tag:yaml.org,2002:map" []) =
      .error (.mappingError "Required key (command) missing"
        (.map "tag:yaml.org,2002:map" [])) ∧
    load_and_map specSafeConstructor cmdMapSchema
        (.map "tag:yaml.org,2002:map"
          [(strNode "command", strNode "a"), (strNode "command", strNode "b")]) =
      .error (.mappingError "Maximum one of (command) allowed"
        (.map "tag:yaml.org,2002:map"
          [(strNode "command", strNode "a"), (strNode "command", strNode "b")])) ∧
    yaschema.match_children
        (.yamap mapTagPattern (some .dictT) [(true, true, [(cmdPattern, yastrDefault, pair)])])
        (.map "tag:yaml.org,2002:map"
          [(strNode "command", strNode "a"), (strNode "command", strNode "b")]) =
      .ok (some [(strNode "b", .yaexpand "command" yastrDefault pair),
                 (strNode "a", .yaexpand "command" yastrDefault pair)]) := by
  refine ⟨?_, ?_, ?_⟩
  · exact (claim_C2_cardinality_enforcement specSafeConstructor mapTagPattern (some .dictT)
      [(true, false, [(cmdPattern, yastrDefault, pair)])] "tag:yaml.org,2002:map" [] []
      (by decide) (by rfl)).1 [] (true, false, [(cmdPattern, yastrDefault, pair)]) []
      rfl (fun e2 he2 => absurd he2 (List.not_mem_nil e2)) rfl (by rfl)
  · exact (claim_C2_cardinality_enforcement specSafeConstructor mapTagPattern (some .dictT)
      [(true, false, [(cmdPattern, yastrDefault, pair)])] "tag:yaml.org,2002:map"
      [(strNode "command", strNode "a"), (strNode "command", strNode "b")]
      [(0, (strNode "b", .yaexpand "command" yastrDefault pair)),
       (0, (strNode "a", .yaexpand "command" yastrDefault pair))]
      (by decide) (by rfl)).2.1 [] (true, false, [(cmdPattern, yastrDefault, pair)]) []
      rfl (fun e2 he2 => absurd he2 (List.not_mem_nil e2)) rfl (by decide)
  · exact (claim_C2_cardinality_enforcement specSafeConstructor mapTagPattern (some .dictT)
      [(true, true, [(cmdPattern, yastrDefault, pair)])] "tag:yaml.org,2002:map"
      [(strNode "command", strNode "a"), (strNode "command", strNode "b")]
      [(0, (strNode "b", .yaexpand "command" yastrDefault pair)),
       (0, (strNode "a", .yaexpand "command" yastrDefault pair))]
      (by decide) (by rfl)).2.2 (fun e he => by
        simp only [List.mem_singleton] at he
        subst he
        rfl)

theorem zipFirstFrom_some_bound {A B : Type} {pred : A → Option B} :
    ∀ (l : List A) (i j : Nat) (a : A) (b : B),
      zipFirstFrom pred i l = some (j, a, b) → i ≤ j ∧ j < i + l.length := by
  intro l
  induction l with
  | nil => intro i j a b h; simp [zipFirstFrom] at h
  | cons x rest ih =>
      intro i j a b h
      rw [zipFirstFrom] at h
      rcases hx : pred x with _ | y
      · rw [hx] at h
        have := ih (i + 1) j a b h
        constructor
        · omega
        · simp only [List.length_cons]
          omega
      · rw [hx] at h
        simp at h
        constructor
        · omega
        · simp only [List.length_cons]
          omega

/-- The entry index recorded by a successful scan is a valid index
into the entry list. -/
theorem scanPair_index_lt {entries : List yaentry} {kv : Node × Node}
    {r : Nat × (Node × yaschema)} (h : scanPair entries kv = .ok r) :
    r.1 < entries.length := by
  rw [scanPair] at h
  by_cases htag : kv.1.tag = "tag:yaml.org,2002:str"
  · simp [htag] at h
    rcases hz : zip_first (fun e => match_item e kv.1.scalarValue kv.2) entries
      with _ | ⟨i, e, key, m, t⟩
    · rw [hz] at h; simp at h
    · rw [hz] at h
      simp at h
      rw [zip_first] at hz
      have := (zipFirstFrom_some_bound entries 0 i e (key, m, t) hz).2
      rw [← h]
      simpa using this
  · simp [htag] at h

theorem exMapM_mem_of {A B : Type} {f : A → Except Err B} :
    ∀ {l : List A} {ys : List B}, exMapM f l = .ok ys →
      ∀ y ∈ ys, ∃ a ∈ l, f a = .ok y := by
  intro l
  induction l with
  | nil =>
      intro ys h y hy
      simp [exMapM] at h
      subst h
      cases hy
  | cons x rest ih =>
      intro ys h y hy
      rw [exMapM] at h
      rcases hx : f x with e | b
      · rw [hx] at h; simp at h
      · rw [hx] at h
        rcases hr : exMapM f rest with e | bs
        · rw [hr] at h; simp at h
        · rw [hr] at h
          simp at h
          subst h
          rcases List.mem_cons.mp hy with rfl | hy2
          · exact ⟨x, List.mem_cons_self _ _, hx⟩
          · rcases ih hr y hy2 with ⟨a, ha, hfa⟩
            exact ⟨a, List.mem_cons_of_mem _ ha, hfa⟩

/-- With a single declared entry rule, every scanned pair is recorded
against that rule (index `0`), regardless of which of the rule's
key-pattern cases matched. -/
theorem hits_index_zero {e : yaentry} {l : List (Node × Node)}
    {hits : List (Nat × (Node × yaschema))}
    (h : exMapM (scanPair [e]) l = .ok hits) : ∀ x ∈ hits, x.1 = 0 := by
  intro x hx
  rcases exMapM_mem_of h x hx with ⟨kv, _, hkv⟩
  have := scanPair_index_lt hkv
  simp at this
  omega

theorem typeFnBEq_refl : ∀ (t : TypeFn), typeFnBEq t t = true
  | .listT => rfl
  | .dictT => rfl
  | .squashedT a => typeFnBEq_refl a
  | .unpackedMapT a => typeFnBEq_refl a
  | .unpackedSeqT a => typeFnBEq_refl a
  | .custom _ => rfl

theorem typeOptBEq_refl : ∀ (t : Option TypeFn), typeOptBEq t t = true
  | none => rfl
  | some a => typeFnBEq_refl a

theorem patOptBEq_refl : ∀ (p : Option Pattern), patOptBEq p p = true
  | none => rfl
  | some a => by simp [patOptBEq]

mutual

/-- The embedded dataclass equality is reflexive: Python's `x == x`. -/
theorem yaschemaBEq_refl : ∀ (s : yaschema), yaschemaBEq s s = true
  | .yaoneof es => by
      simp only [yaschemaBEq]
      exact yaschemaListBEq_refl es
  | .yaexpand k v t => by
      simp only [yaschemaBEq]
      simp [yaschemaBEq_refl v]
  | .yascalar tag ty val con => by
      simp only [yaschemaBEq]
      simp [typeOptBEq_refl ty, patOptBEq_refl val]
  | .yamap tag ty es => by
      simp only [yaschemaBEq]
      simp [typeOptBEq_refl ty, yaentryListBEq_refl es]
  | .yaseq tag ty sch => by
      simp only [yaschemaBEq]
      simp [typeOptBEq_refl ty, yaschemaBEq_refl sch]

theorem yaschemaListBEq_refl : ∀ (l : List yaschema), yaschemaListBEq l l = true
  | [] => rfl
  | s :: r => by
      simp only [yaschemaListBEq]
      simp [yaschemaBEq_refl s, yaschemaListBEq_refl r]

theorem yaentryListBEq_refl :
    ∀ (l : List (Bool × Bool × List (Pattern × yaschema × PairFn))),
      yaentryListBEq l l = true
  | [] => rfl
  | (q, p, ks) :: r => by
      simp only [yaentryListBEq]
      simp [caseListBEq_refl ks, yaentryListBEq_refl r]

theorem caseListBEq_refl :
    ∀ (l : List (Pattern × yaschema × PairFn)), caseListBEq l l = true
  | [] => rfl
  | (p, s, t) :: r => by
      simp only [caseListBEq]
      simp [yaschemaBEq_refl s, caseListBEq_refl r]

end

theorem yaentryBEq_refl (e : yaentry) : yaentryBEq e e = true := by
  rw [yaentryBEq]
  simp [caseListBEq_refl e.keys]

/-- With a single declared entry rule, the value-keyed counter of that
rule counts every scan hit. -/
theorem countFor_singleton {e : yaentry} {hits : List (Nat × (Node × yaschema))}
    (h : ∀ x ∈ hits, x.1 = 0) : countFor [e] hits e = hits.length := by
  have hall : hits.filter (fun h2 =>
      match entryAt [e] h2.1 with
      | some e2 => yaentryBEq e2 e
      | none => false) = hits := by
    apply List.filter_eq_self.mpr
    intro x hx
    show (match entryAt [e] x.1 with
      | some e2 => yaentryBEq e2 e
      | none => false) = true
    rw [h x hx]
    exact yaentryBEq_refl e
  rw [countFor, hall]

/-- C9: the occurrence counter is kept per entry rule, not per
key-pattern case.  For a single non-repeatable rule, two document keys
that each matched the rule (through any of its patterns, possibly two
different ones) drive its counter to two and raise the
at-most-one-allowed error; for a required non-repeatable rule, one key
matching any single pattern of the rule satisfies both its checks, so
`match_children` succeeds. -/
theorem claim_C9_occurrences_per_rule :
    (∀ (C : SafeConstructor) (tag : Pattern) (ty : Option TypeFn) (e : yaentry) (t : String)
        (k1 v1 k2 v2 : Node) (hits : List (Nat × (Node × yaschema))),
        tag.fullmatch t = true →
        e.repeated = false →
        exMapM (scanPair [e]) [(k1, v1), (k2, v2)].reverse = .ok hits →
        load_and_map C (.yamap tag ty [e]) (.map t [(k1, v1), (k2, v2)]) =
          .error (.mappingError ("Maximum one of " ++ keys_repr e ++ " allowed")
            (.map t [(k1, v1), (k2, v2)]))) ∧
    (∀ (tag : Pattern) (ty : Option TypeFn) (e : yaentry) (t : String)
        (k v : Node) (hits : List (Nat × (Node × yaschema))),
        e.required = true → e.repeated = false →
        exMapM (scanPair [e]) [(k, v)].reverse = .ok hits →
        yaschema.match_children (.yamap tag ty [e]) (.map t [(k, v)]) =
          .ok (some (hits.map (fun h => h.2)))) := by
  constructor
  · intro C tag ty e t k1 v1 k2 v2 hits htag hrep hscan
    have hz := hits_index_zero hscan
    have hlen : hits.length = 2 := by
      have := exMapM_ok_length hscan
      simpa using this
    have hcnt : countFor [e] hits e = 2 := by
      rw [countFor_singleton hz, hlen]
    rw [load_yamap_subEval htag]
    apply subEval_mc_error
    rw [yamap_mc_check hscan]
    rw [checkEntries, checkEntriesAux]
    have hco : checkOne (.map t [(k1, v1), (k2, v2)]) [e] hits e =
        .error (.mappingError ("Maximum one of " ++ keys_repr e ++ " allowed")
          (.map t [(k1, v1), (k2, v2)])) := by
      have h1 : (countFor [e] hits e == 0) = false := by
        simp
        omega
      simp [checkOne, h1, hrep, hcnt]
    rw [hco]
  · intro tag ty e t k v hits hreq hrep hscan
    have hz := hits_index_zero hscan
    have hlen : hits.length = 1 := by
      have := exMapM_ok_length hscan
      simpa using this
    have hcnt : countFor [e] hits e = 1 := by
      rw [countFor_singleton hz, hlen]
    rw [yamap_mc_check hscan]
    rw [checkEntries, checkEntriesAux]
    have hco : checkOne (.map t [(k, v)]) [e] hits e = .ok () := by
      simp [checkOne, hcnt]
    rw [hco]
    rfl

/-- Concrete witness for the per-rule counting theorem: one entry rule
with the two cases `arg` and `argument`; the keys `arg` and `argument`
together violate the at-most-one constraint, while `argument` alone
satisfies the required constraint. -/
theorem claim_C9_witness :
    load_and_map specSafeConstructor multiCaseMapSchema
        (.map "tag:yaml.org,2002:map"
          [(strNode "arg", strNode "a"), (strNode "argument", strNode "b")]) =
      .error (.mappingError "Maximum one of (arg | argument) allowed"
        (.map "tag:yaml.org,2002:map"
          [(strNode "arg", strNode "a"), (strNode "argument", strNode "b")])) ∧
    yaschema.match_children multiCaseMapSchema
        (.map "tag:yaml.org,2002:map" [(strNode "argument", strNode "b")]) =
      .ok (some [(strNode "b", .yaexpand "argument" yastrDefault pair)]) := by
  constructor
  · exact claim_C9_occurrences_per_rule.1 specSafeConstructor mapTagPattern (some .dictT)
      multiCaseEntry "tag:yaml.org,2002:map" (strNode "arg") (strNode "a")
      (strNode "argument") (strNode "b")
      [(0, (strNode "b", .yaexpand "argument" yastrDefault pair)),
       (0, (strNode "a", .yaexpand "arg" yastrDefault pair))]
      (by decide) rfl (by rfl)
  · exact claim_C9_occurrences_per_rule.2 mapTagPattern (some .dictT)
      multiCaseEntry "tag:yaml.org,2002:map" (strNode "argument") (strNode "b")
      [(0, (strNode "b", .yaexpand "argument" yastrDefault pair))]
      rfl rfl (by rfl)

theorem get_reverse_eq {A : Type} (l : List A) (i : Nat) (h : i < l.reverse.length) :
    l.reverse.get ⟨i, h⟩ =
      l.get ⟨l.length - 1 - i, by simp at h; omega⟩ := by
  simp only [List.get_eq_getElem]
  rw [List.getElem_reverse]

/-- C1: for a sequence schema (default `list` output type) matched
against an N-item document sequence node, the value returned by `load`
is the list of the resolved items in exact document order: the i-th
element of the output list is the resolved value (match plus sub-run)
of the i-th document item. -/
theorem claim_C1_sequence_document_order :
    ∀ (C : SafeConstructor) (tag : Pattern) (sch : yaschema) (t : String)
      (items : List Node) (v : Value),
      load_and_map C (.yaseq tag (some .listT) sch) (.seq t items) = .ok v →
      ∃ vs : List Value, v = .vlist vs ∧ vs.length = items.length ∧
        ∀ (i : Nat) (h1 : i < items.length) (h2 : i < vs.length),
          load_and_map C sch (items.get ⟨i, h1⟩) = .ok (vs.get ⟨i, h2⟩) := by
  intro C tag sch t items v hload
  rw [load_and_map_eq] at hload
  rcases hm : yaschema.matches (.yaseq tag (some .listT) sch) (.seq t items) with e | ms
  · rw [hm] at hload
    simp at hload
  · rw [hm] at hload
    simp only [yaschema.matches] at hm
    rcases htag : tag.fullmatch (Node.seq t items).tag with _ | _
    · rw [htag] at hm
      simp at hm
    · rw [htag] at hm
      simp at hm
      subst hm
      have hload2 : subEval C (.yaseq tag (some .listT) sch) (.seq t items) = .ok v := hload
      clear hload
      rw [subEval_run] at hload2
      simp only [yaschema.match_children] at hload2
      rcases hsc : exMapM (fun item =>
          match yaschema.matches sch item with
          | .error e => .error e
          | .ok m => .ok (item, m)) items.reverse with e | kids
      · rw [hsc] at hload2
        simp at hload2
      · rw [hsc] at hload2
        have hload3 : (match exMapM (fun p => subEval C p.2 p.1) kids.reverse with
            | .error e => Except.error e
            | .ok vs =>
                match yaschema.resolve (.yaseq tag (some .listT) sch) (.vlist vs) with
                | .error e => Except.error e
                | .ok v2 => Except.ok v2) = Except.ok v := hload2
        clear hload2
        rcases hws : exMapM (fun p => subEval C p.2 p.1) kids.reverse with e | ws
        · rw [hws] at hload3
          simp at hload3
        · rw [hws] at hload3
          have hload4 : (match yaschema.resolve (.yaseq tag (some .listT) sch)
                (.vlist ws) with
              | .error e => Except.error e
              | .ok v2 => Except.ok v2) = Except.ok v := hload3
          clear hload3
          have hres : yaschema.resolve (.yaseq tag (some .listT) sch) (.vlist ws) =
              .ok (.vlist ws) := rfl
          rw [hres] at hload4
          simp at hload4
          subst hload4
          have hlenk : kids.length = items.length := by
            have := exMapM_ok_length hsc
            simpa using this
          have hlenw : ws.length = kids.length := by
            have := exMapM_ok_length hws
            simpa using this
          refine ⟨ws, rfl, by omega, ?_⟩
          intro i hi1 hi2
          have hjr : kids.length - 1 - i < kids.reverse.length := by
            simp
            omega
          have hb := exMapM_ok_get hws i (by simp; omega) hi2
          have hcr : kids.reverse.get ⟨i, by simp; omega⟩ =
              kids.get ⟨kids.length - 1 - i, by omega⟩ := by
            rw [get_reverse_eq]
          rw [hcr] at hb
          have hj2 : kids.length - 1 - i < items.reverse.length := by
            simp
            omega
          have ha := exMapM_ok_get hsc (kids.length - 1 - i) (by simp; omega)
            (by omega)
          rcases hmi : yaschema.matches sch (items.reverse.get
              ⟨kids.length - 1 - i, by simp; omega⟩) with e2 | m
          · rw [hmi] at ha
            simp at ha
          · rw [hmi] at ha
            simp at ha
            have hir : items.reverse.get ⟨kids.length - 1 - i, by simp; omega⟩ =
                items.get ⟨i, hi1⟩ := by
              rw [get_reverse_eq]
              congr 1
              simp
              omega
            rw [hir] at hmi
            rw [load_and_map_eq, hmi]
            show subEval C m (items.get ⟨i, hi1⟩) = Except.ok (ws.get ⟨i, hi2⟩)
            simp only [List.get_eq_getElem] at hb ⊢
            rw [← ha] at hb
            have hidx : items.length - 1 - (kids.length - 1 - i) = i := by omega
            simp only [hidx] at hb
            exact hb

/-- Concrete witness for the order-preservation theorem: a two-string
document sequence loads to the two resolved strings in document
order. -/
theorem claim_C1_witness :
    ∃ vs : List Value,
      Value.vlist [.vstr "a", .vstr "b"] = .vlist vs ∧
      vs.length = ([strNode "a", strNode "b"] : List Node).length ∧
      ∀ (i : Nat) (h1 : i < ([strNode "a", strNode "b"] : List Node).length)
        (h2 : i < vs.length),
        load_and_map specSafeConstructor (.yaoneof [yastrDefault])
          (([strNode "a", strNode "b"] : List Node).get ⟨i, h1⟩) = .ok (vs.get ⟨i, h2⟩) :=
  claim_C1_sequence_document_order specSafeConstructor seqTagPattern
    (.yaoneof [yastrDefault]) "tag:yaml.org,2002:seq" [strNode "a", strNode "b"]
    (.vlist [.vstr "a", .vstr "b"]) (by rfl)

/-- C7: the iterative evaluator's while-loop terminates on every
(finite) document node tree: the machine reaches a final outcome —
the loaded value or a raised error — within `stMeasure + 1` loop
iterations, where `stMeasure` charges each frame once for its pop and
a finite weight for its first (expanding) visit; the outcome of the
bounded run is exactly what `load_and_map` returns. -/
theorem claim_C7_loop_terminates :
    ∀ (C : SafeConstructor) (sch : yaschema) (n : Node) (ms : yaschema),
      yaschema.matches sch n = .ok ms →
      ∃ (k : Nat) (r : Except Err Value),
        k ≤ stMeasure (initState n ms) + 1 ∧
        runF C k (initState n ms) = some r ∧
        load_and_map C sch n = r := by
  intro C sch n ms hm
  have hiso : (runF C (stMeasure (initState n ms) + 1) (initState n ms)).isSome :=
    runF_adequate _ _ (by omega)
  obtain ⟨r, hr⟩ := Option.isSome_iff_exists.mp hiso
  refine ⟨stMeasure (initState n ms) + 1, r, le_rfl, hr, ?_⟩
  rw [load_and_map, hm]
  show runRes C (initState n ms) = r
  rw [runRes, hr]
  rfl

/-- Concrete witness for the termination theorem: loading a one-item
sequence document terminates within the measure bound. -/
theorem claim_C7_witness :
    ∃ (k : Nat) (r : Except Err Value),
      k ≤ stMeasure (initState (.seq "tag:yaml.org,2002:seq" [strNode "a"]) strSeqSchema) + 1 ∧
      runF specSafeConstructor k
        (initState (.seq "tag:yaml.org,2002:seq" [strNode "a"]) strSeqSchema) = some r ∧
      load_and_map specSafeConstructor strSeqSchema
        (.seq "tag:yaml.org,2002:seq" [strNode "a"]) = r :=
  claim_C7_loop_terminates specSafeConstructor strSeqSchema
    (.seq "tag:yaml.org,2002:seq" [strNode "a"]) strSeqSchema (by rfl)

/-- C4 counterexample: it is not true that during one load every
document node is passed to a `matches` call at most once.  Loading the
single scalar document `x` against `yastr()` passes the root node to
`matches` twice: once when the root frame is created
(`schema.matches(node)` at stack initialisation) and once more when
the leaf frame is popped (`top.schema.matches(top.node)` before
`construct_leaf`).  `loadTrace` records, in call order, every node
passed to a `matches` call over the whole evaluation. -/
theorem claim_C4_counterexample :
    countNode (strNode "x")
      (loadTrace specSafeConstructor yastrDefault (strNode "x")) = 2 := by
  rfl

/-- C4 amended: a document node may be passed to `matches` more than
once during one load (a leaf node is re-matched at construction time),
but every re-match of a node against its already-matched schema
returns that schema itself, so the repeated calls are observationally
idempotent and each node is still resolved against a single schema. -/
theorem claim_C4_amended_rematch_consistent :
    ∀ (s : yaschema) (n : Node) (m : yaschema),
      yaschema.matches s n = .ok m → yaschema.matches m n = .ok m :=
  fun s n m h => matches_idem s n m h

/-- Concrete witness for the amended re-match idempotence. -/
theorem claim_C4_amended_witness :
    yaschema.matches yastrDefault (strNode "x") = .ok yastrDefault :=
  claim_C4_amended_rematch_consistent yastrDefault (strNode "x") yastrDefault (by rfl)
